import Mathlib

/-!
Verification of the PDF revision manager and transmittal-matrix scripts.

The definitions below are shallow embeddings of the Python sources:

* `parseFilename`, `groupFiles`, `resolveGroup`, `compareAndGroupFiles`
  embed `pdf_manager/pdf_manager_v3.py` (`parse_filename`,
  `compare_and_group_files`).
* `runMoves`, `processGroups` embed the move loop of `main` in the same file.
* `extractDrawingInfo`, `scanForDrawings` embed
  `scripts/update_transmittal_matrix_refactored.py`
  (`_extract_drawing_info`, `_scan_for_drawings` with
  `config.FILENAME_PATTERNS`).
* The `Grid` operations embed the ODS-table manipulation of
  `TransmittalUpdater` (`_find_header_rows`, `_find_or_create_issue_column`,
  `_get_drawing_rows`, `_update_matrix`, `update_transmittal`).

Cells are modelled by their displayed text (the text of the first child
paragraph, `""` for an empty cell), as the sources only ever read and
replace that text.  Python string comparison (used by `sort`, `<`, `>`)
is embedded as code-point-lexicographic comparison `pyLt` on `List Char`.
-/

/-- Python string `<`: lexicographic comparison of code points. -/
def pyLt : List Char → List Char → Bool
  | [], [] => false
  | [], _ :: _ => true
  | _ :: _, [] => false
  | a :: as, b :: bs =>
    if a.toNat < b.toNat then true
    else if b.toNat < a.toNat then false
    else pyLt as bs

/-- Python string `<=` (equivalently, not `>`). -/
def pyLe (a b : List Char) : Bool := !(pyLt b a)

theorem pyLt_irrefl (a : List Char) : pyLt a a = false := by
  induction a with
  | nil => rfl
  | cons c cs ih => simp [pyLt, ih]

theorem pyLt_antisymm {a b : List Char} (hab : pyLt a b = false)
    (hba : pyLt b a = false) : a = b := by
  induction a generalizing b with
  | nil =>
    cases b with
    | nil => rfl
    | cons y ys => simp [pyLt] at hab
  | cons x xs ih =>
    cases b with
    | nil => simp [pyLt] at hba
    | cons y ys =>
      by_cases hxy : x.toNat < y.toNat
      · simp [pyLt, hxy] at hab
      · by_cases hyx : y.toNat < x.toNat
        · simp [pyLt, hyx, Nat.lt_asymm hyx] at hba
        · simp only [pyLt, if_neg hxy, if_neg hyx] at hab hba
          have hxyv : x = y :=
            Char.ext (UInt32.ext (Nat.le_antisymm (Nat.not_lt.1 hyx) (Nat.not_lt.1 hxy)))
          rw [hxyv, ih hab hba]

/-! ## Filename parsing in `pdf_manager_v3.py`

`parse_filename` tries, in order,

* `^(.+)_([A-Z])\.pdf$` (case-insensitive): base name is capture group 1,
  revision is capture group 2;
* `^LF_([A-Z0-9\-]+)\.pdf$` (case-insensitive): base name is the whole
  match with the literal substring `.pdf` removed, revision is `''`.

Both patterns end in a fixed-length tail anchored at `$`, so greedy
matching of the leading group is equivalent to splitting off the last
characters.  `.` does not match a newline; `[A-Z]` under `IGNORECASE`
matches any ASCII letter. -/

/-- The three characters `pdf` matched case-insensitively. -/
def isPdfChars (p d f : Char) : Bool :=
  p.toLower == 'p' && d.toLower == 'd' && f.toLower == 'f'

/-- Regex `^(.+)_([A-Z])\.pdf$` with `IGNORECASE`: returns
(capture group 1, capture group 2). -/
def matchRevisionPattern (cs : List Char) : Option (List Char × Char) :=
  match cs.drop (cs.length - 6) with
  | [u, c, dot, p, d, f] =>
    if u == '_' && dot == '.' && c.isAlpha && isPdfChars p d f
        && !(cs.take (cs.length - 6)).isEmpty
        && (cs.take (cs.length - 6)).all (fun ch => ch != '\n')
    then some (cs.take (cs.length - 6), c) else none
  | _ => none

/-- Character class `[A-Z0-9\-]` under `IGNORECASE`. -/
def isMidChar (c : Char) : Bool := c.isAlphanum || c == '-'

/-- Regex `^LF_([A-Z0-9\-]+)\.pdf$` with `IGNORECASE`: returns capture
group 1. -/
def matchNoRevisionPattern (cs : List Char) : Option (List Char) :=
  match cs with
  | l :: f :: u :: rest =>
    if l.toLower == 'l' && f.toLower == 'f' && u == '_' then
      match rest.drop (rest.length - 4) with
      | [dot, p, d, fc] =>
        if dot == '.' && isPdfChars p d fc
            && !(rest.take (rest.length - 4)).isEmpty
            && (rest.take (rest.length - 4)).all isMidChar
        then some (rest.take (rest.length - 4)) else none
      | _ => none
    else none
  | _ => none

/-- `parse_filename` of `pdf_manager_v3.py`.  Returns `(base_name, revision)`
with `revision = ""` for a file without a revision letter.  In the second
branch the source computes `match.group(0).replace('.pdf', '')`: the whole
filename with any literal (lower-case) occurrence of `.pdf` removed; since
the capture group cannot contain `.`, the only possible occurrence is a
final exact `.pdf`. -/
def parseFilename (filename : String) : Option (String × String) :=
  match matchRevisionPattern filename.toList with
  | some (base, c) => some (⟨base⟩, String.singleton c)
  | none =>
    match matchNoRevisionPattern filename.toList with
    | some _ =>
      if filename.toList.drop (filename.toList.length - 4) == ['.', 'p', 'd', 'f']
      then some (⟨filename.toList.take (filename.toList.length - 4)⟩, "")
      else some (⟨filename.toList⟩, "")
    | none => none

example : parseFilename "LF_A0-1_A.pdf" = some ("LF_A0-1", "A") := by decide
example : parseFilename "LF_A0-1.pdf" = some ("LF_A0-1", "") := by decide
example : parseFilename "LF_A0-1.PDF" = some ("LF_A0-1.PDF", "") := by decide
example : parseFilename "LF_X.pdf" = some ("LF", "X") := by decide
example : parseFilename "readme.txt" = none := by decide

/-! ## Grouping and revision resolution (`compare_and_group_files`) -/

/-- One step of `grouped_files[base].append((rev, filename))` on a
`defaultdict(list)`: insertion order of keys is preserved, and appends go
to the existing entry. -/
def addToGroups (acc : List (String × List (String × String))) (b : String)
    (rf : String × String) : List (String × List (String × String)) :=
  if (acc.find? (fun g => g.1 == b)).isSome
  then acc.map (fun g => if g.1 == b then (g.1, g.2 ++ [rf]) else g)
  else acc ++ [(b, [rf])]

/-- One iteration of the first loop of `compare_and_group_files`: parse a
filename and either append it to its base-name group or record it as
skipped. -/
def groupStep (acc : List (String × List (String × String)) × List String)
    (f : String) : List (String × List (String × String)) × List String :=
  match parseFilename f with
  | some (b, r) => (addToGroups acc.1 b (r, f), acc.2)
  | none => (acc.1, acc.2 ++ [f])

/-- The first loop of `compare_and_group_files`: group parsed files by base
name, collecting unparsable filenames as skipped. -/
def groupFiles (files : List String) :
    List (String × List (String × String)) × List String :=
  files.foldl groupStep ([], [])

/-- Stable insertion into a list sorted by revision key: `x` is placed
before the first element whose key is strictly greater.  Inserting the
elements left to right therefore keeps the original order of equal keys,
exactly as Python's stable `list.sort(key=lambda x: x[0])`. -/
def insertByRev (x : String × String) :
    List (String × String) → List (String × String)
  | [] => [x]
  | b :: bs => if pyLt x.1.toList b.1.toList then x :: b :: bs else b :: insertByRev x bs

/-- Python's `files.sort(key=lambda x: x[0])`: the stable sort by the
revision component. -/
def sortByRev (l : List (String × String)) : List (String × String) :=
  l.foldl (fun acc x => insertByRev x acc) []

/-- The per-group body of `compare_and_group_files`: split members into
those with and without a revision letter (Python truthiness of `rev`),
sort by revision, keep the last element, move the rest (files without a
revision first when both kinds exist). -/
def withRevOf (ms : List (String × String)) : List (String × String) :=
  ms.filter (fun x => x.1 != "")

def withoutRevOf (ms : List (String × String)) : List (String × String) :=
  ms.filter (fun x => x.1 == "")

def resolveGroup (members : List (String × String)) :
    Option ((String × String) × List (String × String)) :=
  if !(withRevOf members).isEmpty && !(withoutRevOf members).isEmpty then
    (sortByRev (withRevOf members)).getLast?.map
      (fun k => (k, withoutRevOf members ++ (sortByRev (withRevOf members)).dropLast))
  else if !(withRevOf members).isEmpty then
    (sortByRev (withRevOf members)).getLast?.map
      (fun k => (k, (sortByRev (withRevOf members)).dropLast))
  else
    (sortByRev (withoutRevOf members)).getLast?.map
      (fun k => (k, (sortByRev (withoutRevOf members)).dropLast))

/-- `compare_and_group_files`: final groups (base name, (keep, move)) in
insertion order, plus skipped filenames. -/
def compareAndGroupFiles (files : List String) :
    List (String × ((String × String) × List (String × String))) × List String :=
  let (gs, skipped) := groupFiles files
  (gs.filterMap (fun g => (resolveGroup g.2).map (fun kv => (g.1, kv))), skipped)

example :
    compareAndGroupFiles ["LF_A0-1_A.pdf", "LF_A0-1.pdf", "LF_A0-1_B.pdf"] =
      ([("LF_A0-1", (("B", "LF_A0-1_B.pdf"),
        [("", "LF_A0-1.pdf"), ("A", "LF_A0-1_A.pdf")]))], []) := by decide


/-! ## Facts about the sort and the grouping -/

theorem mem_insertByRev {y x : String × String} {l : List (String × String)} :
    y ∈ insertByRev x l ↔ y = x ∨ y ∈ l := by
  induction l with
  | nil => simp [insertByRev]
  | cons b bs ih =>
    simp only [insertByRev]
    split
    · simp [List.mem_cons]
    · simp only [List.mem_cons, ih]
      tauto

theorem mem_sortByRev {y : String × String} {l : List (String × String)} :
    y ∈ sortByRev l ↔ y ∈ l := by
  suffices h : ∀ acc, y ∈ l.foldl (fun acc x => insertByRev x acc) acc ↔
      y ∈ acc ∨ y ∈ l by
    simpa [sortByRev] using h []
  induction l with
  | nil => simp
  | cons b bs ih =>
    intro acc
    simp only [List.foldl_cons, ih, mem_insertByRev, List.mem_cons]
    tauto

theorem resolveGroup_keep_mem {ms : List (String × String)}
    {keep : String × String} {move : List (String × String)}
    (hres : resolveGroup ms = some (keep, move)) : keep ∈ ms := by
  unfold resolveGroup at hres
  split at hres
  · rw [Option.map_eq_some'] at hres
    obtain ⟨k, hk, hkeep⟩ := hres
    have hkm : k ∈ withRevOf ms := mem_sortByRev.1 (List.mem_of_mem_getLast? hk)
    cases hkeep
    exact (List.mem_filter.1 hkm).1
  · split at hres
    · rw [Option.map_eq_some'] at hres
      obtain ⟨k, hk, hkeep⟩ := hres
      have hkm : k ∈ withRevOf ms := mem_sortByRev.1 (List.mem_of_mem_getLast? hk)
      cases hkeep
      exact (List.mem_filter.1 hkm).1
    · rw [Option.map_eq_some'] at hres
      obtain ⟨k, hk, hkeep⟩ := hres
      have hkm : k ∈ withoutRevOf ms := mem_sortByRev.1 (List.mem_of_mem_getLast? hk)
      cases hkeep
      exact (List.mem_filter.1 hkm).1

/-- The grouping invariant: every member of a group parses back to the
group's base name and its own revision. -/
def GroupsInv (gs : List (String × List (String × String))) : Prop :=
  ∀ g ∈ gs, ∀ rf ∈ g.2, parseFilename rf.2 = some (g.1, rf.1)

theorem groupStep_preserves {acc : List (String × List (String × String)) × List String}
    (hacc : GroupsInv acc.1) (f : String) : GroupsInv (groupStep acc f).1 := by
  unfold groupStep
  cases hp : parseFilename f with
  | none => exact hacc
  | some br =>
    obtain ⟨b0, r0⟩ := br
    dsimp only
    intro g hg rf hrf
    unfold addToGroups at hg
    split at hg
    · rw [List.mem_map] at hg
      obtain ⟨g0, hg0, hgeq⟩ := hg
      by_cases hkey : (g0.1 == b0) = true
      · rw [if_pos hkey] at hgeq
        have hb : g0.1 = b0 := by simpa using hkey
        cases hgeq
        rcases List.mem_append.1 hrf with hin | hin
        · exact hacc g0 hg0 rf hin
        · simp only [List.mem_singleton] at hin
          subst hin
          rw [hb, hp]
      · rw [if_neg hkey] at hgeq
        subst hgeq
        exact hacc g0 hg0 rf hrf
    · rcases List.mem_append.1 hg with hin | hin
      · exact hacc g hin rf hrf
      · simp only [List.mem_singleton] at hin
        subst hin
        simp only [List.mem_singleton] at hrf
        subst hrf
        exact hp

theorem groupFold_inv (files : List String) :
    ∀ acc : List (String × List (String × String)) × List String,
      GroupsInv acc.1 → GroupsInv (files.foldl groupStep acc).1 := by
  induction files with
  | nil => intro acc hacc; exact hacc
  | cons f fs ih =>
    intro acc hacc
    rw [List.foldl_cons]
    exact ih _ (groupStep_preserves hacc f)

theorem groupFiles_members_parse {files : List String} {b : String}
    {ms : List (String × String)} (hmem : (b, ms) ∈ (groupFiles files).1) :
    ∀ rf ∈ ms, parseFilename rf.2 = some (b, rf.1) := by
  intro rf hrf
  exact groupFold_inv files ([], []) (by intro g hg; simp at hg) (b, ms) hmem rf hrf

theorem isEmpty_false_of_ne_nil {α : Type} {l : List α} (h : l ≠ []) :
    l.isEmpty = false := by
  cases l with
  | nil => exact absurd rfl h
  | cons a as => rfl

/-- If a group has any member with a present revision token, the kept
member comes from the with-revision side of the split. -/
theorem resolveGroup_keep_withRev {ms : List (String × String)}
    {keep : String × String} {move : List (String × String)}
    (hres : resolveGroup ms = some (keep, move))
    (hex : ∃ x ∈ ms, x.1 ≠ "") : keep.1 ≠ "" := by
  have hne : withRevOf ms ≠ [] := by
    obtain ⟨x, hxm, hx1⟩ := hex
    intro hnil
    have hxf : x ∈ withRevOf ms := List.mem_filter.2 ⟨hxm, by simpa using hx1⟩
    rw [hnil] at hxf
    simp at hxf
  have hkeep1 : ∀ k : String × String, k ∈ withRevOf ms → k.1 ≠ "" := by
    intro k hk
    have := (List.mem_filter.1 hk).2
    simpa using this
  unfold resolveGroup at hres
  split at hres
  · rw [Option.map_eq_some'] at hres
    obtain ⟨k, hk, hkeep⟩ := hres
    have hkm := mem_sortByRev.1 (List.mem_of_mem_getLast? hk)
    cases hkeep
    exact hkeep1 _ hkm
  · split at hres
    · rw [Option.map_eq_some'] at hres
      obtain ⟨k, hk, hkeep⟩ := hres
      have hkm := mem_sortByRev.1 (List.mem_of_mem_getLast? hk)
      cases hkeep
      exact hkeep1 _ hkm
    · rename_i hc
      exact absurd (isEmpty_false_of_ne_nil hne) (by simpa using hc)

/-- C1: in `compare_and_group_files`, for every group of identities sharing
a base name that contains at least one member with a present revision
token, the resolved `keep` member always has a present revision token.
The decision uses only parsed revision tokens; no file modification
timestamp enters the computation. -/
theorem keep_always_revisioned {files : List String} {b : String}
    {ms : List (String × String)} {keep : String × String}
    {move : List (String × String)}
    (_hgroup : (b, ms) ∈ (groupFiles files).1)
    (hres : resolveGroup ms = some (keep, move))
    (hex : ∃ x ∈ ms, x.1 ≠ "") : keep.1 ≠ "" :=
  resolveGroup_keep_withRev hres hex

/-- C1 witness: on the folder listing `LF_A0-1_A.pdf`, `LF_A0-1.pdf`, the
single group has one revisioned and one unrevisioned member, and the kept
member carries revision `A`. -/
theorem keep_always_revisioned_witness :
    ("LF_A0-1", [("A", "LF_A0-1_A.pdf"), ("", "LF_A0-1.pdf")]) ∈
        (groupFiles ["LF_A0-1_A.pdf", "LF_A0-1.pdf"]).1 ∧
      resolveGroup [("A", "LF_A0-1_A.pdf"), ("", "LF_A0-1.pdf")] =
        some (("A", "LF_A0-1_A.pdf"), [("", "LF_A0-1.pdf")]) ∧
      ("A" : String) ≠ "" :=
  ⟨by decide, by decide,
    @keep_always_revisioned ["LF_A0-1_A.pdf", "LF_A0-1.pdf"] "LF_A0-1"
      [("A", "LF_A0-1_A.pdf"), ("", "LF_A0-1.pdf")] ("A", "LF_A0-1_A.pdf")
      [("", "LF_A0-1.pdf")] (by decide) (by decide)
      ⟨("A", "LF_A0-1_A.pdf"), by decide, by decide⟩⟩

/-! ## Injectivity of the unrevisioned parse

Two distinct filenames can never yield the same base name with an empty
revision: the base name of an unrevisioned file determines the filename.
This is what makes the `files_without_revision` tie-break degenerate. -/

theorem matchNoRevisionPattern_shape {cs mid : List Char}
    (h : matchNoRevisionPattern cs = some mid) :
    ∃ l f p d fc, cs = l :: f :: '_' :: (mid ++ ['.', p, d, fc]) ∧
      (l.toLower == 'l') = true ∧ (f.toLower == 'f') = true ∧
      isPdfChars p d fc = true ∧ mid ≠ [] ∧ ∀ c ∈ mid, isMidChar c = true := by
  rcases cs with _ | ⟨l, _ | ⟨f, _ | ⟨u, rest⟩⟩⟩
  · simp [matchNoRevisionPattern] at h
  · simp [matchNoRevisionPattern] at h
  · simp [matchNoRevisionPattern] at h
  · simp only [matchNoRevisionPattern] at h
    by_cases h1 : (l.toLower == 'l' && f.toLower == 'f' && u == '_') = true
    · rw [if_pos h1] at h
      rcases hdrop : rest.drop (rest.length - 4) with _ | ⟨dot, _ | ⟨p, _ | ⟨d, _ | ⟨fc, _ | ⟨x, xs⟩⟩⟩⟩⟩
      · rw [hdrop] at h
        exact absurd h (by simp)
      · rw [hdrop] at h
        exact absurd h (by simp)
      · rw [hdrop] at h
        exact absurd h (by simp)
      · rw [hdrop] at h
        exact absurd h (by simp)
      · rw [hdrop] at h
        dsimp only at h
        have h13 : (l.toLower == 'l') = true ∧ (f.toLower == 'f') = true ∧
            (u == '_') = true := by
          simpa [Bool.and_assoc] using h1
        by_cases h2 : (dot == '.' && isPdfChars p d fc
            && !(rest.take (rest.length - 4)).isEmpty
            && (rest.take (rest.length - 4)).all isMidChar) = true
        · rw [if_pos h2] at h
          have hmid : rest.take (rest.length - 4) = mid := by
            injection h
          obtain ⟨hdot, hpdf, hne, hall⟩ :
              (dot == '.') = true ∧ isPdfChars p d fc = true ∧
                (!(rest.take (rest.length - 4)).isEmpty) = true ∧
                ((rest.take (rest.length - 4)).all isMidChar) = true := by
            simpa [Bool.and_assoc] using h2
          have hu : u = '_' := by simpa using h13.2.2
          have hdotc : dot = '.' := by simpa using hdot
          refine ⟨l, f, p, d, fc, ?_, by simpa using h13.1, by simpa using h13.2.1,
            hpdf, ?_, ?_⟩
          · rw [hu, ← hmid, ← hdotc]
            have htd : rest.take (rest.length - 4) ++ rest.drop (rest.length - 4) = rest :=
              List.take_append_drop _ _
            rw [hdrop] at htd
            rw [htd]
          · rw [← hmid]
            intro hnil
            rw [hnil] at hne
            simp at hne
          · intro c hc
            rw [← hmid] at hc
            exact List.all_eq_true.1 hall c hc
        · rw [if_neg h2] at h
          exact absurd h (by simp)
      · rw [hdrop] at h
        exact absurd h (by simp)
    · rw [if_neg h1] at h
      exact absurd h (by simp)

theorem parse_noRev_shape {fn b : String} (h : parseFilename fn = some (b, "")) :
    ('.' ∈ b.toList → fn = b) ∧
      ('.' ∉ b.toList → fn.toList = b.toList ++ ['.', 'p', 'd', 'f']) := by
  unfold parseFilename at h
  cases hrev : matchRevisionPattern fn.toList with
  | some bc =>
    rw [hrev] at h
    obtain ⟨base, c⟩ := bc
    simp only [Option.some.injEq, Prod.mk.injEq] at h
    have : String.singleton c = "" := h.2
    have hc : [c] = ([] : List Char) := congrArg String.data this
    simp at hc
  | none =>
    rw [hrev] at h
    cases hnr : matchNoRevisionPattern fn.toList with
    | none =>
      rw [hnr] at h
      exact absurd h (by simp)
    | some mid =>
      rw [hnr] at h
      obtain ⟨l, f, p, d, fc, hcs, hl, hf, hpdf, hne, hall⟩ :=
        matchNoRevisionPattern_shape hnr
      have hlen4 : fn.toList.length - 4 = (l :: f :: '_' :: mid).length := by
        rw [hcs]
        simp only [List.length_cons, List.length_append, List.length_nil]
        omega
      have hreassoc : fn.toList = (l :: f :: '_' :: mid) ++ ['.', p, d, fc] := by
        rw [hcs]
        simp
      have hdrop4 : fn.toList.drop (fn.toList.length - 4) = ['.', p, d, fc] := by
        rw [hlen4, hreassoc, List.drop_left]
      have htake4 : fn.toList.take (fn.toList.length - 4) = l :: f :: '_' :: mid := by
        rw [hlen4, hreassoc, List.take_left]
      by_cases hext : (fn.toList.drop (fn.toList.length - 4) == ['.', 'p', 'd', 'f']) = true
      · rw [if_pos hext] at h
        simp only [Option.some.injEq, Prod.mk.injEq] at h
        have hb : b = (⟨fn.toList.take (fn.toList.length - 4)⟩ : String) := h.1.symm
        have hbl : b.toList = l :: f :: '_' :: mid := by
          rw [hb]
          exact htake4
        have hnodot : '.' ∉ b.toList := by
          rw [hbl]
          intro hmem
          simp only [List.mem_cons] at hmem
          rcases hmem with h1' | h2' | h3' | hmem
          · rw [← h1'] at hl
            exact absurd hl (by decide)
          · rw [← h2'] at hf
            exact absurd hf (by decide)
          · exact absurd h3' (by decide)
          · have hmc := hall '.' hmem
            exact absurd hmc (by decide)
        constructor
        · intro hdot
          exact absurd hdot hnodot
        · intro _
          have hpdfeq : ['.', p, d, fc] = ['.', 'p', 'd', 'f'] := by
            have := hext
            rw [hdrop4] at this
            simpa using this
          rw [hreassoc, ← hbl, hpdfeq]
      · rw [if_neg hext] at h
        simp only [Option.some.injEq, Prod.mk.injEq] at h
        have hb : b = fn := h.1.symm.trans rfl
        have hdot : '.' ∈ b.toList := by
          rw [hb, hreassoc]
          simp
        constructor
        · intro _
          exact hb.symm
        · intro hnd
          exact absurd hdot hnd

/-- The base name of an unrevisioned parse determines the filename. -/
theorem parse_noRev_inj {f1 f2 b : String}
    (h1 : parseFilename f1 = some (b, ""))
    (h2 : parseFilename f2 = some (b, "")) : f1 = f2 := by
  obtain ⟨ha1, hb1⟩ := parse_noRev_shape h1
  obtain ⟨ha2, hb2⟩ := parse_noRev_shape h2
  by_cases hdot : '.' ∈ b.toList
  · rw [ha1 hdot, ha2 hdot]
  · have e12 : f1.toList = f2.toList := by rw [hb1 hdot, hb2 hdot]
    exact String.ext e12

/-- C8: for every group whose members all have absent revision tokens and
that has two or more members, the member kept is the maximum under
lexicographic ascending order on the full original filename (and every
member with a lexicographically smaller filename is superseded).  In
`pdf_manager_v3.py` this holds because the base name of an unrevisioned
parse determines the filename, so all such members carry the same
filename and the kept one is trivially maximal. -/
theorem unrevisioned_keep_lex_max {files : List String} {b : String}
    {ms : List (String × String)} {keep : String × String}
    {move : List (String × String)}
    (hgroup : (b, ms) ∈ (groupFiles files).1)
    (hres : resolveGroup ms = some (keep, move))
    (hall : ∀ x ∈ ms, x.1 = "") (_hlen : 2 ≤ ms.length) :
    (∀ x ∈ ms, pyLt keep.2.toList x.2.toList = false) ∧
      (∀ x ∈ ms, pyLt x.2.toList keep.2.toList = true → x ∈ move) := by
  have hparse := groupFiles_members_parse hgroup
  have hkmem : keep ∈ ms := resolveGroup_keep_mem hres
  have heq : ∀ x ∈ ms, x.2 = keep.2 := by
    intro x hx
    have hx2 : parseFilename x.2 = some (b, "") := by
      have := hparse x hx
      rw [hall x hx] at this
      exact this
    have hk2 : parseFilename keep.2 = some (b, "") := by
      have := hparse keep hkmem
      rw [hall keep hkmem] at this
      exact this
    exact parse_noRev_inj hx2 hk2
  constructor
  · intro x hx
    rw [heq x hx]
    exact pyLt_irrefl _
  · intro x hx hlt
    rw [heq x hx, pyLt_irrefl] at hlt
    cases hlt

/-- C8 witness: a group with two unrevisioned members (a duplicated folder
listing), where the kept filename is maximal among the members. -/
theorem unrevisioned_keep_lex_max_witness :
    pyLt "LF_A0-1.pdf".toList "LF_A0-1.pdf".toList = false :=
  (@unrevisioned_keep_lex_max ["LF_A0-1.pdf", "LF_A0-1.pdf"] "LF_A0-1"
      [("", "LF_A0-1.pdf"), ("", "LF_A0-1.pdf")] ("", "LF_A0-1.pdf")
      [("", "LF_A0-1.pdf")] (by decide) (by decide)
      (by decide) (by decide)).1 ("", "LF_A0-1.pdf") (by decide)

/-! ## C7: base names versus first capture groups -/

/-- C7 counterexample: `LF_A0-1.pdf` matches the unrevisioned pattern whose
first capture group is `A0-1`, yet `parse_filename` returns base name
`LF_A0-1` (the whole match with `.pdf` stripped), not the capture group. -/
theorem base_name_not_capture_group :
    matchNoRevisionPattern "LF_A0-1.pdf".toList = some "A0-1".toList ∧
      parseFilename "LF_A0-1.pdf" = some ("LF_A0-1", "") ∧
      ("LF_A0-1" : String) ≠ "A0-1" := by
  refine ⟨by decide, by decide, by decide⟩

/-- C7 amended: for filenames matching the revision-letter pattern the base
name is that pattern's first capture group with case preserved; for
filenames matching only the unrevisioned pattern the base name is the whole
filename with a final literal lowercase `.pdf` removed when present. -/
theorem base_name_of_match (fn : String) :
    (∀ base c, matchRevisionPattern fn.toList = some (base, c) →
      parseFilename fn = some (⟨base⟩, String.singleton c)) ∧
    (matchRevisionPattern fn.toList = none →
      ∀ mid, matchNoRevisionPattern fn.toList = some mid →
        parseFilename fn =
          some (if fn.toList.drop (fn.toList.length - 4) = ['.', 'p', 'd', 'f']
                then (⟨fn.toList.take (fn.toList.length - 4)⟩ : String)
                else fn, "")) := by
  constructor
  · intro base c hm
    unfold parseFilename
    rw [hm]
  · intro hrev mid hmid
    unfold parseFilename
    rw [hrev, hmid]
    by_cases hext : (fn.toList.drop (fn.toList.length - 4) == ['.', 'p', 'd', 'f']) = true
    · rw [if_pos hext, if_pos (by simpa using hext)]
    · rw [if_neg hext, if_neg (by simpa using hext)]
      rfl

/-- C7 amended-theorem witness at concrete inputs for both branches. -/
theorem base_name_of_match_witness :
    parseFilename "x_A.pdf" = some (⟨"x".toList⟩, String.singleton 'A') ∧
      parseFilename "LF_A0-1.pdf" =
        some (if "LF_A0-1.pdf".toList.drop ("LF_A0-1.pdf".toList.length - 4) =
                  ['.', 'p', 'd', 'f']
              then (⟨"LF_A0-1.pdf".toList.take ("LF_A0-1.pdf".toList.length - 4)⟩ : String)
              else "LF_A0-1.pdf", "") :=
  ⟨(base_name_of_match "x_A.pdf").1 "x".toList 'A' (by decide),
    (base_name_of_match "LF_A0-1.pdf").2 (by decide) "A0-1".toList (by decide)⟩

/-! ## The move loop of `main` in `pdf_manager_v3.py` (C3)

The loop over selected groups calls `shutil.move` for every `move` member
with no `try`/`except` around it; a raised exception propagates out of
`main` uncaught.  The filesystem effect of `shutil.move` is abstracted as
a fallible primitive `mv` over an abstract state; an `Except.error`
result models the raised exception, which every enclosing frame
propagates unchanged. -/

/-- A resolved group as processed by the move loop: the `(rev, filename)`
pair to keep and the list of `(rev, filename)` pairs to move. -/
structure GroupInfo where
  keep : String × String
  move : List (String × String)

/-- The inner `for rev, file in move_files` loop: move each file in order,
appending to `moved_files` after each successful move.  A failure of `mv`
aborts the whole computation (no handler in the source). -/
def runMoves {σ ε : Type} (mv : σ → String → Except ε σ) :
    σ → List (String × String) → Except ε (σ × List String)
  | s, [] => .ok (s, [])
  | s, rf :: rest =>
    match mv s rf.2 with
    | .error e => .error e
    | .ok s1 =>
      match runMoves mv s1 rest with
      | .error e => .error e
      | .ok (s2, moved) => .ok (s2, rf.2 :: moved)

/-- The outer `for base, group_info in grouped_files.items()` loop over the
selected groups: run the moves of each group, then append the kept file,
accumulating the final `(moved_files, kept_files)` tally printed at the
end of `main`. -/
def processGroups {σ ε : Type} (mv : σ → String → Except ε σ) :
    σ → List (String × GroupInfo) → Except ε (σ × List String × List String)
  | s, [] => .ok (s, [], [])
  | s, (_, gi) :: rest =>
    match runMoves mv s gi.move with
    | .error e => .error e
    | .ok (s1, movedg) =>
      match processGroups mv s1 rest with
      | .error e => .error e
      | .ok (s2, moved, kept) => .ok (s2, movedg ++ moved, gi.keep.2 :: kept)

theorem runMoves_append {σ ε : Type} (mv : σ → String → Except ε σ)
    (l1 l2 : List (String × String)) (s : σ) :
    runMoves mv s (l1 ++ l2) =
      match runMoves mv s l1 with
      | .error e => .error e
      | .ok (s1, m1) =>
        match runMoves mv s1 l2 with
        | .error e => .error e
        | .ok (s2, m2) => .ok (s2, m1 ++ m2) := by
  induction l1 generalizing s with
  | nil =>
    simp only [List.nil_append, runMoves]
    cases runMoves mv s l2 with
    | error e => rfl
    | ok pr => rfl
  | cons q qs ih =>
    rw [List.cons_append]
    simp only [runMoves]
    cases mv s q.2 with
    | error e => rfl
    | ok s0 =>
      dsimp only
      rw [ih s0]
      cases runMoves mv s0 qs with
      | error e => rfl
      | ok pr =>
        obtain ⟨s1, m1⟩ := pr
        dsimp only
        cases runMoves mv s1 l2 with
        | error e => rfl
        | ok pr2 => rfl

/-- A move primitive instrumented to log attempted moves: it fails exactly
on the filename `"bad.pdf"` and otherwise records the attempt. -/
def logMv (s : List String) (f : String) : Except Unit (List String) :=
  if f == "bad.pdf" then .error () else .ok (s ++ [f])

/-- C3 counterexample: with two pending moves where the first fails, the
run does not end with an aggregate tally (an `.ok` pair of moved and kept
lists): it aborts with the exception, so the remaining move of the batch
is never attempted. -/
theorem move_failure_aborts_batch :
    processGroups logMv []
        [("b", ⟨("A", "keep.pdf"), [("", "bad.pdf"), ("", "good.pdf")]⟩)] =
      .error () ∧
      ∀ s moved kept,
        processGroups logMv []
            [("b", ⟨("A", "keep.pdf"), [("", "bad.pdf"), ("", "good.pdf")]⟩)] ≠
          .ok (s, moved, kept) := by
  refine ⟨rfl, ?_⟩
  intro s moved kept h
  have h2 : (Except.error () : Except Unit (List String × List String × List String)) =
      .ok (s, moved, kept) := by
    rw [← h]
    rfl
  cases h2

/-- C3 amended: a failing individual move aborts the whole run with that
failure: the final result is the first raised error, whatever moves of the
same group or later groups remain, and no `(moved, kept)` tally is
produced. -/
theorem move_failure_propagates {σ ε : Type} (mv : σ → String → Except ε σ)
    (s s1 : σ) (b : String) (keep : String × String)
    (pre post : List (String × String)) (r f : String) (e : ε)
    (rest : List (String × GroupInfo)) (m1 : List String)
    (hpre : runMoves mv s pre = .ok (s1, m1))
    (hfail : mv s1 f = .error e) :
    processGroups mv s ((b, ⟨keep, pre ++ (r, f) :: post⟩) :: rest) = .error e := by
  have hrun : runMoves mv s (pre ++ (r, f) :: post) = .error e := by
    rw [runMoves_append, hpre]
    simp only [runMoves, hfail]
  simp only [processGroups, hrun]

/-- C3 witness: the abort theorem instantiated at the counterexample input
(one successful move before the failing one). -/
theorem move_failure_propagates_witness :
    processGroups logMv []
        [("b", ⟨("A", "keep.pdf"),
          [("", "ok.pdf"), ("", "bad.pdf"), ("", "good.pdf")]⟩)] =
      .error () :=
  move_failure_propagates logMv [] ["ok.pdf"] "b" ("A", "keep.pdf")
    [("", "ok.pdf")] [("", "good.pdf")] "" "bad.pdf" () [] ["ok.pdf"]
    rfl rfl

/-! ## Folder scanning in `update_transmittal_matrix_refactored.py` (C6, C10)

`_extract_drawing_info` tries `config.FILENAME_PATTERNS`, which holds the
single pattern `^(.+)[_.-]([A-Z])\.(pdf|dwg|dxf)$`, case-insensitively,
and upper-cases capture groups 2 and 3.  `_scan_for_drawings` keeps, per
drawing number, the entry with the greatest revision string under
Python's `>`. -/

theorem pyLt_asymm {a b : List Char} (h : pyLt a b = true) : pyLt b a = false := by
  induction a generalizing b with
  | nil =>
    cases b with
    | nil => simp [pyLt] at h
    | cons y ys => simp [pyLt]
  | cons x xs ih =>
    cases b with
    | nil => simp [pyLt] at h
    | cons y ys =>
      by_cases hxy : x.toNat < y.toNat
      · simp [pyLt, Nat.lt_asymm hxy, hxy]
      · by_cases hyx : y.toNat < x.toNat
        · simp [pyLt, hxy, hyx] at h
        · simp only [pyLt, if_neg hxy, if_neg hyx] at h ⊢
          exact ih h

theorem pyLt_trans {a b c : List Char} (hab : pyLt a b = true)
    (hbc : pyLt b c = true) : pyLt a c = true := by
  induction a generalizing b c with
  | nil =>
    cases c with
    | nil =>
      cases b with
      | nil => simp [pyLt] at hab
      | cons y ys => simp [pyLt] at hbc
    | cons z zs => simp [pyLt]
  | cons x xs ih =>
    cases b with
    | nil => simp [pyLt] at hab
    | cons y ys =>
      cases c with
      | nil => simp [pyLt] at hbc
      | cons z zs =>
        by_cases hxy : x.toNat < y.toNat
        · by_cases hyz : y.toNat < z.toNat
          · have hxz : x.toNat < z.toNat := Nat.lt_trans hxy hyz
            simp [pyLt, hxz]
          · by_cases hzy : z.toNat < y.toNat
            · simp [pyLt, hyz, hzy] at hbc
            · have hyzeq : y.toNat = z.toNat :=
                Nat.le_antisymm (Nat.not_lt.1 hzy) (Nat.not_lt.1 hyz)
              have hxz : x.toNat < z.toNat := hyzeq ▸ hxy
              simp [pyLt, hxz]
        · by_cases hyx : y.toNat < x.toNat
          · simp [pyLt, hxy, hyx] at hab
          · simp only [pyLt, if_neg hxy, if_neg hyx] at hab
            have hxyeq : x.toNat = y.toNat :=
              Nat.le_antisymm (Nat.not_lt.1 hyx) (Nat.not_lt.1 hxy)
            by_cases hyz : y.toNat < z.toNat
            · have hxz : x.toNat < z.toNat := hxyeq ▸ hyz
              simp [pyLt, hxz]
            · by_cases hzy : z.toNat < y.toNat
              · simp [pyLt, hyz, hzy] at hbc
              · simp only [pyLt, if_neg hyz, if_neg hzy] at hbc
                have hxz : ¬x.toNat < z.toNat := by rw [hxyeq]; exact hyz
                have hzx : ¬z.toNat < x.toNat := by rw [hxyeq]; exact hzy
                simp only [pyLt, if_neg hxz, if_neg hzx]
                exact ih hab hbc

/-- Character class `[_.-]`: the revision separator. -/
def isSepChar (c : Char) : Bool := c == '_' || c == '.' || c == '-'

/-- Alternation `(pdf|dwg|dxf)` matched case-insensitively. -/
def isDrawingExt (e1 e2 e3 : Char) : Bool :=
  ([e1.toLower, e2.toLower, e3.toLower] == ['p', 'd', 'f']) ||
  ([e1.toLower, e2.toLower, e3.toLower] == ['d', 'w', 'g']) ||
  ([e1.toLower, e2.toLower, e3.toLower] == ['d', 'x', 'f'])

/-- Regex `^(.+)[_.-]([A-Z])\.(pdf|dwg|dxf)$` with `IGNORECASE`: returns
the three capture groups.  All alternatives of the tail have the same
fixed length, so the greedy leading group takes everything but the last
six characters. -/
def matchDrawingPattern (cs : List Char) :
    Option (List Char × Char × List Char) :=
  match cs.drop (cs.length - 6) with
  | [sep, c, dot, e1, e2, e3] =>
    if isSepChar sep && c.isAlpha && dot == '.' && isDrawingExt e1 e2 e3
        && !(cs.take (cs.length - 6)).isEmpty
        && (cs.take (cs.length - 6)).all (fun ch => ch != '\n')
    then some (cs.take (cs.length - 6), c, [e1, e2, e3]) else none
  | _ => none

/-- `_extract_drawing_info`: drawing number is capture group 1 as matched,
revision is capture group 2 upper-cased, format is capture group 3
upper-cased. -/
def extractDrawingInfo (filename : String) :
    Option (String × String × String) :=
  (matchDrawingPattern filename.toList).map
    (fun g => (⟨g.1⟩, String.singleton g.2.1.toUpper, ⟨g.2.2.map Char.toUpper⟩))

example : extractDrawingInfo "A101_B.pdf" = some ("A101", "B", "PDF") := by decide
example : extractDrawingInfo "a101-b.dwg" = some ("a101", "B", "DWG") := by decide
example : extractDrawingInfo "A101.B.dxf" = some ("A101", "B", "DXF") := by decide
example : extractDrawingInfo "A101.pdf" = none := by decide

/-- Lookup in the `issued_drawings` dict, modelled as an association list
in insertion order. -/
def scanLookup (acc : List (String × String × String)) (dn : String) :
    Option (String × String) :=
  (acc.find? (fun en => en.1 == dn)).map (fun en => en.2)

/-- One iteration of the `_scan_for_drawings` loop:
`if drawing_no not in issued_drawings or rev > issued_drawings[dn][0]:
issued_drawings[dn] = (rev, ext)`.  A new key is appended; an update
replaces the value in place. -/
def scanStep (acc : List (String × String × String)) (f : String) :
    List (String × String × String) :=
  match extractDrawingInfo f with
  | none => acc
  | some (dn, rev, ext) =>
    match scanLookup acc dn with
    | none => acc ++ [(dn, rev, ext)]
    | some (r0, _) =>
      if pyLt r0.toList rev.toList
      then acc.map (fun en => if en.1 == dn then (dn, rev, ext) else en)
      else acc

/-- `_scan_for_drawings` over an already-filtered folder listing. -/
def scanForDrawings (files : List String) : List (String × String × String) :=
  files.foldl scanStep []

example :
    scanLookup (scanForDrawings ["TEST-001_A.pdf", "TEST-002-B.dwg", "TEST-001_B.pdf"])
      "TEST-001" = some ("B", "PDF") := by decide

theorem scanLookup_append (acc : List (String × String × String))
    (en : String × String × String) (dn : String) :
    scanLookup (acc ++ [en]) dn =
      match scanLookup acc dn with
      | some v => some v
      | none => if en.1 == dn then some en.2 else none := by
  induction acc with
  | nil =>
    simp only [List.nil_append, scanLookup, List.find?]
    by_cases h : (en.1 == dn) = true
    · rw [h]
      simp [h]
    · rw [Bool.eq_false_iff.2 h]
      simp [h]
  | cons a as ih =>
    simp only [List.cons_append, scanLookup, List.find?]
    by_cases h : (a.1 == dn) = true
    · rw [h]
      simp
    · rw [Bool.eq_false_iff.2 h]
      exact ih

theorem scanLookup_mapReplace (acc : List (String × String × String))
    (dn2 : String) (v : String × String) (dn : String) :
    scanLookup (acc.map (fun en => if en.1 == dn2 then (dn2, v) else en)) dn =
      if dn2 = dn then (scanLookup acc dn).map (fun _ => v)
      else scanLookup acc dn := by
  induction acc with
  | nil => by_cases h : dn2 = dn <;> simp [scanLookup, h]
  | cons a as ih =>
    simp only [List.map_cons, scanLookup, List.find?]
    by_cases hkey : (a.1 == dn2) = true
    · have hk : a.1 = dn2 := by simpa using hkey
      rw [if_pos hkey]
      by_cases hdn : dn2 = dn
      · have : ((dn2, v).1 == dn) = true := by simp [hdn]
        rw [this]
        have ha : (a.1 == dn) = true := by simp [hk, hdn]
        rw [ha]
        simp [hdn]
      · have : ((dn2, v).1 == dn) = false := by
          simp only [beq_eq_false_iff_ne, ne_eq]
          exact hdn
        rw [this]
        have ha : (a.1 == dn) = false := by
          simp only [beq_eq_false_iff_ne, ne_eq, hk]
          exact hdn
        rw [ha]
        simpa [scanLookup, hdn] using ih
    · rw [if_neg hkey]
      by_cases ha : (a.1 == dn) = true
      · rw [ha]
        by_cases hdn : dn2 = dn
        · exact absurd (by simp [hdn, (by simpa using ha : a.1 = dn)]) hkey
        · simp [hdn]
      · rw [Bool.eq_false_iff.2 ha]
        simpa [scanLookup] using ih

/-- The effect of one scan step on the recorded entry of a drawing. -/
theorem scanLookup_scanStep (acc : List (String × String × String))
    (f : String) (dn : String) :
    scanLookup (scanStep acc f) dn =
      match extractDrawingInfo f with
      | none => scanLookup acc dn
      | some (dn2, rev, ext) =>
        if dn2 = dn then
          match scanLookup acc dn with
          | none => some (rev, ext)
          | some (r0, e0) =>
            if pyLt r0.toList rev.toList then some (rev, ext) else some (r0, e0)
        else scanLookup acc dn := by
  unfold scanStep
  cases hx : extractDrawingInfo f with
  | none => rfl
  | some g =>
    obtain ⟨dn2, rev, ext⟩ := g
    dsimp only
    cases hl : scanLookup acc dn2 with
    | none =>
      rw [scanLookup_append]
      by_cases hdn : dn2 = dn
      · subst hdn
        rw [hl]
        simp
      · have : scanLookup acc dn = scanLookup acc dn := rfl
        cases hld : scanLookup acc dn with
        | none =>
          simp only [hld, if_neg hdn]
          simp [beq_eq_false_iff_ne, hdn]
        | some v =>
          simp [hld, if_neg hdn]
    | some r0e =>
      obtain ⟨r0, e0⟩ := r0e
      dsimp only
      by_cases hcmp : pyLt r0.toList rev.toList = true
      · have hcmp2 : pyLt r0.data rev.data = true := hcmp
        rw [if_pos hcmp, scanLookup_mapReplace]
        by_cases hdn : dn2 = dn
        · subst hdn
          rw [hl]
          simp [hcmp2]
        · rw [if_neg hdn, if_neg hdn]
      · have hcmp2 : pyLt r0.data rev.data = false := Bool.eq_false_iff.2 hcmp
        rw [if_neg hcmp]
        by_cases hdn : dn2 = dn
        · subst hdn
          rw [hl]
          simp [hcmp2]
        · rw [if_neg hdn]

/-- The running best `(rev, ext)` pair for one drawing number over a file
list, starting from a current entry: the specification-level unfolding of
the scan loop restricted to a single key. -/
def bestRev (dn : String) : List String → Option (String × String) →
    Option (String × String)
  | [], cur => cur
  | f :: fs, cur =>
    match extractDrawingInfo f with
    | none => bestRev dn fs cur
    | some (dn2, rev, ext) =>
      if dn2 = dn then
        match cur with
        | none => bestRev dn fs (some (rev, ext))
        | some (r0, e0) =>
          bestRev dn fs
            (if pyLt r0.toList rev.toList then some (rev, ext) else some (r0, e0))
      else bestRev dn fs cur

/-- The scan fold tracks `bestRev` key by key. -/
theorem scanLookup_foldl (files : List String)
    (acc : List (String × String × String)) (dn : String) :
    scanLookup (files.foldl scanStep acc) dn =
      bestRev dn files (scanLookup acc dn) := by
  induction files generalizing acc with
  | nil => rfl
  | cons f fs ih =>
    rw [List.foldl_cons, ih, bestRev]
    rw [scanLookup_scanStep]
    cases hx : extractDrawingInfo f with
    | none => rfl
    | some g =>
      obtain ⟨dn2, rev, ext⟩ := g
      dsimp only
      by_cases hdn : dn2 = dn
      · rw [if_pos hdn, if_pos hdn]
        cases scanLookup acc dn with
        | none => rfl
        | some v => rfl
      · rw [if_neg hdn, if_neg hdn]

theorem bestRev_eq_none {dn : String} {files : List String}
    {cur : Option (String × String)} :
    bestRev dn files cur = none ↔
      cur = none ∧ ∀ f ∈ files, ∀ r e, extractDrawingInfo f ≠ some (dn, r, e) := by
  induction files generalizing cur with
  | nil => simp [bestRev]
  | cons f fs ih =>
    rw [bestRev]
    cases hx : extractDrawingInfo f with
    | none =>
      rw [ih]
      simp only [List.mem_cons]
      constructor
      · rintro ⟨hc, hall⟩
        refine ⟨hc, fun g hg r e => ?_⟩
        rcases hg with hg | hg
        · subst hg
          simp [hx]
        · exact hall g hg r e
      · rintro ⟨hc, hall⟩
        exact ⟨hc, fun g hg r e => hall g (Or.inr hg) r e⟩
    | some g0 =>
      obtain ⟨dn2, rev, ext⟩ := g0
      dsimp only
      by_cases hdn : dn2 = dn
      · subst hdn
        rw [if_pos rfl]
        cases cur with
        | none =>
          rw [ih]
          constructor
          · rintro ⟨hc, _⟩
            cases hc
          · rintro ⟨_, hall⟩
            exact absurd hx (hall f (List.mem_cons_self f fs) rev ext)
        | some v =>
          obtain ⟨r0, e0⟩ := v
          dsimp only
          rw [ih]
          constructor
          · rintro ⟨hc, _⟩
            by_cases hcmp : pyLt r0.data rev.data = true <;> simp [hcmp] at hc
          · rintro ⟨hc, _⟩
            cases hc
      · rw [if_neg hdn, ih]
        simp only [List.mem_cons]
        constructor
        · rintro ⟨hc, hall⟩
          refine ⟨hc, fun g hg r e => ?_⟩
          rcases hg with hg | hg
          · subst hg
            rw [hx]
            intro heq
            injection heq with heq2
            exact hdn (congrArg Prod.fst heq2)
          · exact hall g hg r e
        · rintro ⟨hc, hall⟩
          exact ⟨hc, fun g hg r e => hall g (Or.inr hg) r e⟩

/-- The recorded revision is achieved and is an upper bound: it comes from
the starting entry or some file, is never below the starting entry, and is
never below any recognized revision for this drawing number. -/
theorem bestRev_max {dn : String} {files : List String}
    {cur : Option (String × String)} {r e : String}
    (h : bestRev dn files cur = some (r, e)) :
    ((∃ e0, cur = some (r, e0)) ∨
        ∃ f ∈ files, ∃ e2, extractDrawingInfo f = some (dn, r, e2)) ∧
      (∀ r0 e0, cur = some (r0, e0) → pyLt r.toList r0.toList = false) ∧
      (∀ f ∈ files, ∀ r2 e2, extractDrawingInfo f = some (dn, r2, e2) →
        pyLt r.toList r2.toList = false) := by
  induction files generalizing cur with
  | nil =>
    rw [bestRev] at h
    refine ⟨Or.inl ⟨e, h⟩, ?_, ?_⟩
    · intro r0 e0 hc
      rw [h] at hc
      injection hc with hc2
      have : r0 = r := (congrArg Prod.fst hc2).symm
      rw [this]
      exact pyLt_irrefl _
    · intro f hf
      simp at hf
  | cons f fs ih =>
    rw [bestRev] at h
    cases hx : extractDrawingInfo f with
    | none =>
      rw [hx] at h
      obtain ⟨hach, hcur, hub⟩ := ih h
      refine ⟨?_, hcur, ?_⟩
      · rcases hach with hc | ⟨g, hg, he⟩
        · exact Or.inl hc
        · exact Or.inr ⟨g, List.mem_cons_of_mem f hg, he⟩
      · intro g hg r2 e2 hge
        rcases List.mem_cons.1 hg with hg | hg
        · subst hg
          rw [hx] at hge
          cases hge
        · exact hub g hg r2 e2 hge
    | some g0 =>
      obtain ⟨dn2, rev, ext⟩ := g0
      rw [hx] at h
      dsimp only at h
      by_cases hdn : dn2 = dn
      · subst hdn
        rw [if_pos rfl] at h
        cases cur with
        | none =>
          obtain ⟨hach, hcur, hub⟩ := ih h
          refine ⟨?_, ?_, ?_⟩
          · rcases hach with ⟨e0, hc⟩ | ⟨g, hg, he⟩
            · injection hc with hc2
              exact Or.inr ⟨f, List.mem_cons_self f fs,
                ext, by rw [hx, show rev = r from congrArg Prod.fst hc2]⟩
            · exact Or.inr ⟨g, List.mem_cons_of_mem f hg, he⟩
          · intro r0 e0 hc
            cases hc
          · intro g hg r2 e2 hge
            rcases List.mem_cons.1 hg with hg | hg
            · subst hg
              rw [hx] at hge
              injection hge with hge2
              have hr2 : r2 = rev := by
                have := congrArg (fun q => q.2.1) hge2
                simpa using this.symm
              subst hr2
              exact hcur r2 ext rfl
            · exact hub g hg r2 e2 hge
        | some v =>
          obtain ⟨r0, e0⟩ := v
          dsimp only at h
          obtain ⟨hach, hcur, hub⟩ := ih h
          by_cases hcmp : pyLt r0.toList rev.toList = true
          · rw [if_pos hcmp] at hach hcur
            have hrrev : pyLt r.toList rev.toList = false := hcur rev ext rfl
            have hrr0 : pyLt r.toList r0.toList = false := by
              by_cases hc : pyLt r.toList r0.toList = true
              · exact absurd (pyLt_trans hc hcmp) (by rw [hrrev]; simp)
              · exact Bool.eq_false_iff.2 hc
            refine ⟨?_, ?_, ?_⟩
            · rcases hach with ⟨e1, hc⟩ | ⟨g, hg, he⟩
              · injection hc with hc2
                exact Or.inr ⟨f, List.mem_cons_self f fs,
                  ext, by rw [hx, show rev = r from congrArg Prod.fst hc2]⟩
              · exact Or.inr ⟨g, List.mem_cons_of_mem f hg, he⟩
            · intro r1 e1 hc
              injection hc with hc2
              rw [show r0 = r1 from congrArg Prod.fst hc2] at hrr0
              exact hrr0
            · intro g hg r2 e2 hge
              rcases List.mem_cons.1 hg with hg | hg
              · subst hg
                rw [hx] at hge
                injection hge with hge2
                have hr2 : r2 = rev := by
                  have := congrArg (fun q => q.2.1) hge2
                  simpa using this.symm
                subst hr2
                exact hrrev
              · exact hub g hg r2 e2 hge
          · rw [if_neg hcmp] at hach hcur
            have hrr0 : pyLt r.toList r0.toList = false := hcur r0 e0 rfl
            have hrrev : pyLt r.toList rev.toList = false := by
              by_cases hc : pyLt r.toList rev.toList = true
              · by_cases hc2 : pyLt rev.toList r0.toList = true
                · exact absurd (pyLt_trans hc hc2) (by rw [hrr0]; simp)
                · have hne : rev.toList = r0.toList :=
                    pyLt_antisymm (Bool.eq_false_iff.2 hc2)
                      (Bool.eq_false_iff.2 hcmp)
                  rw [hne] at hc
                  exact absurd hc (by rw [hrr0]; simp)
              · exact Bool.eq_false_iff.2 hc
            refine ⟨?_, ?_, ?_⟩
            · rcases hach with ⟨e1, hc⟩ | ⟨g, hg, he⟩
              · injection hc with hc2
                exact Or.inl ⟨e0, by rw [show r0 = r from congrArg Prod.fst hc2]⟩
              · exact Or.inr ⟨g, List.mem_cons_of_mem f hg, he⟩
            · intro r1 e1 hc
              injection hc with hc2
              rw [show r0 = r1 from congrArg Prod.fst hc2] at hrr0
              exact hrr0
            · intro g hg r2 e2 hge
              rcases List.mem_cons.1 hg with hg | hg
              · subst hg
                rw [hx] at hge
                injection hge with hge2
                have hr2 : r2 = rev := by
                  have := congrArg (fun q => q.2.1) hge2
                  simpa using this.symm
                subst hr2
                exact hrrev
              · exact hub g hg r2 e2 hge
      · rw [if_neg hdn] at h
        obtain ⟨hach, hcur, hub⟩ := ih h
        refine ⟨?_, hcur, ?_⟩
        · rcases hach with hc | ⟨g, hg, he⟩
          · exact Or.inl hc
          · exact Or.inr ⟨g, List.mem_cons_of_mem f hg, he⟩
        · intro g hg r2 e2 hge
          rcases List.mem_cons.1 hg with hg | hg
          · subst hg
            rw [hx] at hge
            injection hge with hge2
            exact absurd (congrArg Prod.fst hge2) hdn
          · exact hub g hg r2 e2 hge

/-- C6: for every folder scan, the revision recorded per base name is the
lexicographically maximal revision among all recognized files carrying
that base name (it is achieved by some file and bounds every recognized
revision from above), an entry exists exactly when some file is
recognized for that base name, and the recorded revision is independent
of the enumeration order of the files. -/
theorem scan_records_lex_max (files : List String) (dn : String) :
    (scanLookup (scanForDrawings files) dn = none ↔
      ∀ f ∈ files, ∀ r e, extractDrawingInfo f ≠ some (dn, r, e)) ∧
    (∀ r e, scanLookup (scanForDrawings files) dn = some (r, e) →
      (∃ f ∈ files, ∃ e2, extractDrawingInfo f = some (dn, r, e2)) ∧
      ∀ f ∈ files, ∀ r2 e2, extractDrawingInfo f = some (dn, r2, e2) →
        pyLt r.toList r2.toList = false) ∧
    (∀ files2, files.Perm files2 → ∀ r e r2 e2,
      scanLookup (scanForDrawings files) dn = some (r, e) →
      scanLookup (scanForDrawings files2) dn = some (r2, e2) → r = r2) := by
  have hbase : ∀ fl : List String,
      scanLookup (scanForDrawings fl) dn = bestRev dn fl none :=
    fun fl => scanLookup_foldl fl [] dn
  have hmax : ∀ fl : List String, ∀ r e,
      scanLookup (scanForDrawings fl) dn = some (r, e) →
      (∃ f ∈ fl, ∃ e2, extractDrawingInfo f = some (dn, r, e2)) ∧
      ∀ f ∈ fl, ∀ r2 e2, extractDrawingInfo f = some (dn, r2, e2) →
        pyLt r.toList r2.toList = false := by
    intro fl r e h
    rw [hbase fl] at h
    obtain ⟨hach, _, hub⟩ := bestRev_max h
    refine ⟨?_, hub⟩
    rcases hach with ⟨e0, hc⟩ | hach
    · cases hc
    · exact hach
  refine ⟨?_, hmax files, ?_⟩
  · rw [hbase files, bestRev_eq_none]
    simp
  · intro files2 hperm r e r2 e2 h1 h2
    obtain ⟨⟨f1, hf1, e1', he1⟩, _⟩ := hmax files r e h1
    obtain ⟨⟨f2, hf2, e2', he2⟩, hub2⟩ := hmax files2 r2 e2 h2
    obtain ⟨_, hub1⟩ := hmax files r e h1
    have hle1 : pyLt r2.toList r.toList = false :=
      hub2 f1 (hperm.mem_iff.1 hf1) r e1' he1
    have hle2 : pyLt r.toList r2.toList = false :=
      hub1 f2 (hperm.mem_iff.2 hf2) r2 e2' he2
    exact String.ext (pyLt_antisymm hle2 hle1)

/-- C6 witness: with files `TEST-001_A.pdf`, `TEST-001_B.pdf`, the
recorded revision `B` is not below the recognized revision `A`. -/
theorem scan_records_lex_max_witness :
    pyLt "B".toList "A".toList = false :=
  ((scan_records_lex_max ["TEST-001_A.pdf", "TEST-001_B.pdf"] "TEST-001").2.1
      "B" "PDF" (by decide)).2 "TEST-001_A.pdf" (by decide) "A" "PDF" (by decide)

/-! ## C10: recorded revision and format are upper-cased -/

theorem toUpper_isUpper_of_isAlpha (c : Char) (h : c.isAlpha = true) :
    c.toUpper.isUpper = true := by
  have hAlpha : (c.isUpper || c.isLower) = true := by
    unfold Char.isAlpha at h
    exact h
  have hUp : ∀ d : Char, d.isUpper = (65 ≤ d.toNat && d.toNat ≤ 90) := fun d => rfl
  have hLow : ∀ d : Char, d.isLower = (97 ≤ d.toNat && d.toNat ≤ 122) := fun d => rfl
  unfold Char.toUpper
  dsimp only
  by_cases hl : c.toNat ≥ 97 ∧ c.toNat ≤ 122
  · rw [if_pos hl]
    have hv : (c.toNat - 32).isValidChar := by
      unfold Nat.isValidChar
      left
      omega
    have ht : (Char.ofNat (c.toNat - 32)).toNat = c.toNat - 32 := by
      unfold Char.ofNat
      rw [dif_pos hv]
      unfold Char.ofNatAux
      rfl
    rw [hUp, ht]
    simp only [Bool.and_eq_true, decide_eq_true_eq]
    omega
  · rw [if_neg hl]
    have hAlpha2 : c.isUpper = true ∨ c.isLower = true := by
      simpa using hAlpha
    rcases hAlpha2 with hu | hlow
    · exact hu
    · rw [hLow] at hlow
      simp only [Bool.and_eq_true, decide_eq_true_eq] at hlow
      exact absurd ⟨hlow.1, hlow.2⟩ hl

theorem toUpper_not_isLower (c : Char) : c.toUpper.isLower = false := by
  have hLow : ∀ d : Char, d.isLower = (97 ≤ d.toNat && d.toNat ≤ 122) := fun d => rfl
  unfold Char.toUpper
  dsimp only
  by_cases hl : c.toNat ≥ 97 ∧ c.toNat ≤ 122
  · rw [if_pos hl]
    have hv : (c.toNat - 32).isValidChar := by
      unfold Nat.isValidChar
      left
      omega
    have ht : (Char.ofNat (c.toNat - 32)).toNat = c.toNat - 32 := by
      unfold Char.ofNat
      rw [dif_pos hv]
      unfold Char.ofNatAux
      rfl
    rw [hLow, ht]
    rw [Bool.eq_false_iff]
    intro hcon
    simp only [Bool.and_eq_true, decide_eq_true_eq] at hcon
    omega
  · rw [if_neg hl]
    rw [hLow, Bool.eq_false_iff]
    intro hcon
    simp only [Bool.and_eq_true, decide_eq_true_eq] at hcon
    exact hl ⟨hcon.1, hcon.2⟩

theorem matchDrawingPattern_isAlpha {cs : List Char}
    {g : List Char × Char × List Char}
    (h : matchDrawingPattern cs = some g) : g.2.1.isAlpha = true := by
  unfold matchDrawingPattern at h
  split at h
  · split at h
    · rename_i heq
      injection h with h2
      subst h2
      simp only [Bool.and_eq_true] at heq
      exact heq.1.1.1.1.2
    · exact absurd h (by simp)
  · exact absurd h (by simp)

/-- C10: every filename recognized by the matrix-workflow matcher has its
revision and format recorded upper-cased: the recorded revision is a
single upper-case letter and no character of the recorded format is
lower-case, whatever the case of the filename. -/
theorem matrix_revision_uppercase {fn dn r e : String}
    (h : extractDrawingInfo fn = some (dn, r, e)) :
    r.length = 1 ∧ (∀ c ∈ r.toList, c.isUpper = true) ∧
      (∀ c ∈ e.toList, c.isLower = false) := by
  unfold extractDrawingInfo at h
  rw [Option.map_eq_some'] at h
  obtain ⟨g, hg, heq⟩ := h
  have halpha := matchDrawingPattern_isAlpha hg
  obtain ⟨base, c0, exts⟩ := g
  simp only [Prod.mk.injEq] at heq
  obtain ⟨hdn, hr, he⟩ := heq
  subst hr
  subst he
  refine ⟨rfl, ?_, ?_⟩
  · intro ch hch
    have hch2 : ch = c0.toUpper := by
      have : (String.singleton c0.toUpper).toList = [c0.toUpper] := rfl
      rw [this] at hch
      simpa using hch
    rw [hch2]
    exact toUpper_isUpper_of_isAlpha c0 halpha
  · intro ch hch
    have hch2 : ch ∈ exts.map Char.toUpper := hch
    rw [List.mem_map] at hch2
    obtain ⟨c1, _, hc1⟩ := hch2
    rw [← hc1]
    exact toUpper_not_isLower c1

/-- C10 witness: the lowercase filename `a101-b.dwg` is recognized and its
recorded revision letter `B` is upper-case. -/
theorem matrix_revision_uppercase_witness : ('B' : Char).isUpper = true :=
  (@matrix_revision_uppercase "a101-b.dwg" "a101" "B" "DWG" (by decide)).2.1
    'B' (by decide)

/-! ## The transmittal grid (`TransmittalUpdater`, C2, C4, C5, C9)

The ODS table is modelled as a list of rows of cell texts.  All cell
reads and writes in the source go through `_get_cell_text` and the
"remove the first child, then append a paragraph" idiom, so a cell is its
displayed text, `""` when empty.

`_find_header_rows` scans every row and assigns `date_row_idx` /
`meta_row_idx` on every row whose first cell equals the sentinel, without
breaking: when several rows carry the sentinel, the last one wins. -/

structure Grid where
  rows : List (List String)
deriving DecidableEq

/-- Cell text at row `i`, column `j` (blank when absent). -/
def getCell (g : Grid) (i j : Nat) : String := (g.rows.getD i []).getD j ""

/-- Does the first cell of the row hold the sentinel text? (rows with no
cells are skipped by the `if cells:` guard). -/
def firstCellIs (sent : String) : List String → Bool
  | [] => false
  | c :: _ => c == sent

/-- Index of the last row whose first cell equals the sentinel, as
computed by the overwriting loop of `_find_header_rows`. -/
def lastSentinelIdx (sent : String) : List (List String) → Option Nat
  | [] => none
  | r :: rs =>
    match lastSentinelIdx sent rs with
    | some j => some (j + 1)
    | none => if firstCellIs sent r then some 0 else none

/-- `_find_header_rows` with `HEADER_KEYWORDS`: `("Date", "Issue")`. -/
def findHeaderRows (g : Grid) : Option Nat × Option Nat :=
  (lastSentinelIdx "Date" g.rows, lastSentinelIdx "Issue" g.rows)

/-- `while len(rows) <= meta_row_idx + 1: table.addElement(TableRow())`:
append empty rows until the table has at least `n` rows. -/
def padRows (rows : List (List String)) (n : Nat) : List (List String) :=
  rows ++ List.replicate (n - rows.length) []

/-- First column whose cell text equals the label, as the
`for col_idx, cell in enumerate(date_cells)` loop. -/
def findIdxFirst (p : String → Bool) : List String → Option Nat
  | [] => none
  | c :: cs => if p c then some 0 else (findIdxFirst p cs).map (fun j => j + 1)

/-- The found-column branch: overwrite the meta cell when the meta row is
long enough (`if col_idx < len(meta_cells)`), else leave everything
as is. -/
def foundColUpdate (rows : List (List String)) (m colIdx : Nat)
    (meta : String) : List (List String) :=
  if colIdx < (rows.getD m []).length
  then rows.set m ((rows.getD m []).set colIdx meta)
  else rows

/-- `for i in range(meta_row_idx + 1, len(rows)): rows[i].addElement(TableCell())`:
append one blank cell to every row from index `k` on. -/
def appendBlankFrom : List (List String) → Nat → List (List String)
  | [], _ => []
  | r :: rs, 0 => (r ++ [""]) :: appendBlankFrom rs 0
  | r :: rs, k + 1 => r :: appendBlankFrom rs k

/-- The create-column branch: append the label cell to the date row, the
meta cell to the meta row (reading the meta row after the date append, as
the live row objects alias when the indices coincide), then a blank cell
to every later row. -/
def createColUpdate (rows : List (List String)) (d m : Nat)
    (label meta : String) : List (List String) :=
  appendBlankFrom
    ((rows.set d ((rows.getD d []) ++ [label])).set m
      (((rows.set d ((rows.getD d []) ++ [label])).getD m []) ++ [meta]))
    (m + 1)

/-- `_find_or_create_issue_column`.  The returned index of the create
branch is `len(date_row.getElementsByType(TableCell)) - 1`, read from the
live date row after the blank-cell loop. -/
def findOrCreateIssueColumn (g : Grid) (label meta : String) :
    Except String (Grid × Nat) :=
  match findHeaderRows g with
  | (some d, some m) =>
    match findIdxFirst (fun c => c == label)
        ((padRows g.rows (m + 2)).getD d []) with
    | some colIdx =>
      .ok (⟨foundColUpdate (padRows g.rows (m + 2)) m colIdx meta⟩, colIdx)
    | none =>
      .ok (⟨createColUpdate (padRows g.rows (m + 2)) d m label meta⟩,
        ((createColUpdate (padRows g.rows (m + 2)) d m label meta).getD d []).length - 1)
  | _ => .error "Could not find header rows in the transmittal file."

/-- The rows strictly after the meta row whose first cell is neither blank
nor the `"Drawing No."` header, keyed by that first cell, in row order. -/
def drawingRowsFrom : List (List String) → Nat → List (String × Nat)
  | [], _ => []
  | r :: rs, i =>
    match r with
    | [] => drawingRowsFrom rs (i + 1)
    | c :: _ =>
      if c != "" && c != "Drawing No."
      then (c, i) :: drawingRowsFrom rs (i + 1)
      else drawingRowsFrom rs (i + 1)

/-- `_get_drawing_rows`: the mapping from drawing number to its row.  With
dict semantics a repeated key keeps the last row, so lookups search the
collected list from the end. -/
def getDrawingRows (g : Grid) : List (String × Nat) :=
  match findHeaderRows g with
  | (_, some m) => drawingRowsFrom (g.rows.drop (m + 1)) (m + 1)
  | _ => []

/-- Dict lookup over the collected drawing rows: last entry wins. -/
def drLookup (l : List (String × Nat)) (k : String) : Option Nat :=
  (l.reverse.find? (fun p => p.1 == k)).map (fun p => p.2)

/-- The update of an existing drawing row: grow the row with blank cells
up to the issue column, then replace that cell's text. -/
def upsertCell (row : List String) (colIdx : Nat) (t : String) : List String :=
  (row ++ List.replicate (colIdx + 1 - row.length) "").set colIdx t

/-- The new-drawing branch of `_update_matrix`: a cell with the drawing
number, then `issue_column_idx` blank cells, the revision written into
the last cell, right-padded with blanks to the header row's length.
When `colIdx = 0` no blank cell exists and the source appends the
revision paragraph to the drawing-number cell, whose displayed text (its
first child) remains the drawing number. -/
def appendDrawingRow (dn rev : String) (colIdx headerCells : Nat) :
    List String :=
  (if colIdx = 0 then [dn]
   else dn :: (List.replicate (colIdx - 1) "" ++ [rev])) ++
    List.replicate
      (headerCells -
        (if colIdx = 0 then [dn]
         else dn :: (List.replicate (colIdx - 1) "" ++ [rev])).length) ""

/-- One iteration of the `_update_matrix` loop over `issued_drawings`. -/
def updateMatrixStep (colIdx m : Nat) (dr : List (String × Nat))
    (rows : List (List String)) (en : String × String × String) :
    List (List String) :=
  match drLookup dr en.1 with
  | some i => rows.set i (upsertCell (rows.getD i []) colIdx en.2.1)
  | none =>
    rows ++ [appendDrawingRow en.1 en.2.1 colIdx ((rows.getD m []).length)]

/-- `_update_matrix`. -/
def updateMatrix (g : Grid) (issued : List (String × String × String))
    (dr : List (String × Nat)) (colIdx : Nat) : Grid :=
  match findHeaderRows g with
  | (_, some m) => ⟨issued.foldl (updateMatrixStep colIdx m dr) g.rows⟩
  | _ => g

/-- `update_transmittal` of the refactored script, with today's date and
the folder listing threaded as inputs: find or create the issue column,
collect the drawing rows, scan the folder, and update the matrix.  When
the scan finds nothing the function returns before `doc.save`, so the
persisted grid is the original one; when the headers are missing the
raised `ValueError` propagates and nothing is saved. -/
def updateTransmittal (g : Grid) (files : List String)
    (label meta : String) : Except String Grid :=
  match findOrCreateIssueColumn g label meta with
  | .error e => .error e
  | .ok (g1, colIdx) =>
    match scanForDrawings files with
    | [] => .ok g
    | issued => .ok (updateMatrix g1 issued (getDrawingRows g1) colIdx)

example :
    findOrCreateIssueColumn ⟨[["Date"], ["Issue"]]⟩ "2026-10-12" "TP (PDF)" =
      .ok (⟨[["Date", "2026-10-12"], ["Issue", "TP (PDF)"], [""]]⟩, 1) := rfl

example :
    updateTransmittal ⟨[["Date"], ["Issue"]]⟩ ["X_B.pdf"] "2026-10-12" "TP (PDF)" =
      .ok ⟨[["Date", "2026-10-12"], ["Issue", "TP (PDF)"], [""], ["X", "B"]]⟩ := rfl

/-! ## C2: a later synchronization can overwrite a same-day cell downwards -/

/-- C2 counterexample: on a template grid, a first synchronization under
date label `2026-10-12` records revision `B` for drawing `X`; a second
synchronization the same day (same label), run after the `B` file is no
longer in the folder, overwrites that very cell with the smaller revision
`A`.  The write of the later synchronization replaces `B` by the
lexicographically smaller `A`. -/
theorem revision_can_decrease_same_label :
    updateTransmittal ⟨[["Date"], ["Issue"]]⟩ ["X_B.pdf"] "2026-10-12" "TP (PDF)" =
      .ok ⟨[["Date", "2026-10-12"], ["Issue", "TP (PDF)"], [""], ["X", "B"]]⟩ ∧
    getCell ⟨[["Date", "2026-10-12"], ["Issue", "TP (PDF)"], [""], ["X", "B"]]⟩ 3 1 = "B" ∧
    updateTransmittal ⟨[["Date", "2026-10-12"], ["Issue", "TP (PDF)"], [""], ["X", "B"]]⟩
        ["X_A.pdf"] "2026-10-12" "RE (PDF)" =
      .ok ⟨[["Date", "2026-10-12"], ["Issue", "RE (PDF)"], [""], ["X", "A"]]⟩ ∧
    getCell ⟨[["Date", "2026-10-12"], ["Issue", "RE (PDF)"], [""], ["X", "A"]]⟩ 3 1 = "A" ∧
    pyLt "A".toList "B".toList = true :=
  ⟨rfl, rfl, rfl, rfl, by decide⟩

/-! ## Cell-preservation lemmas -/

theorem getD_set_self_str (l : List String) (i : Nat) (a : String)
    (h : i < l.length) : (l.set i a).getD i "" = a := by
  rw [List.getD_eq_getElem?_getD, List.getElem?_set_self (by simpa using h)]
  rfl

theorem getD_set_ne_str (l : List String) (i j : Nat) (a : String)
    (h : i ≠ j) : (l.set i a).getD j "" = l.getD j "" := by
  rw [List.getD_eq_getElem?_getD, List.getElem?_set_ne h,
    ← List.getD_eq_getElem?_getD]

theorem getD_append_blank (l : List String) (k n : Nat) :
    (l ++ List.replicate k "").getD n "" = l.getD n "" := by
  rw [List.getD_eq_getElem?_getD, List.getD_eq_getElem?_getD,
    List.getElem?_append]
  by_cases h : n < l.length
  · rw [if_pos h]
  · rw [if_neg h, List.getElem?_replicate]
    have hnone : l[n]? = none := List.getElem?_eq_none (by omega)
    rw [hnone]
    by_cases h2 : n - l.length < k
    · rw [if_pos h2]
      rfl
    · rw [if_neg h2]

theorem getD_append_left_str (l l2 : List String) (n : Nat)
    (h : n < l.length) : (l ++ l2).getD n "" = l.getD n "" := by
  rw [List.getD_eq_getElem?_getD, List.getD_eq_getElem?_getD,
    List.getElem?_append, if_pos h]

/-- Rows version: a grid's row list padded with empty rows keeps every
row readable through `getD`. -/
theorem getD_padRows (rows : List (List String)) (n i : Nat) :
    (padRows rows n).getD i [] = if i < rows.length then rows.getD i [] else [] := by
  unfold padRows
  rw [List.getD_eq_getElem?_getD, List.getElem?_append]
  by_cases h : i < rows.length
  · rw [if_pos h, if_pos h, ← List.getD_eq_getElem?_getD]
  · rw [if_neg h, if_neg h, List.getElem?_replicate]
    by_cases h2 : i - rows.length < n - rows.length
    · rw [if_pos h2]
      rfl
    · rw [if_neg h2]
      rfl

theorem getD_rows_set_self (rows : List (List String)) (i : Nat)
    (r : List String) (h : i < rows.length) : (rows.set i r).getD i [] = r := by
  rw [List.getD_eq_getElem?_getD, List.getElem?_set_self (by simpa using h)]
  rfl

theorem getD_rows_set_ne (rows : List (List String)) (i j : Nat)
    (r : List String) (h : i ≠ j) : (rows.set i r).getD j [] = rows.getD j [] := by
  rw [List.getD_eq_getElem?_getD, List.getElem?_set_ne h,
    ← List.getD_eq_getElem?_getD]

theorem appendBlankFrom_length (rows : List (List String)) (k : Nat) :
    (appendBlankFrom rows k).length = rows.length := by
  induction rows generalizing k with
  | nil => rfl
  | cons r rs ih =>
    cases k with
    | zero => simpa [appendBlankFrom] using ih 0
    | succ k2 => simpa [appendBlankFrom] using ih k2

theorem appendBlankFrom_getD (rows : List (List String)) (k i : Nat) :
    (appendBlankFrom rows k).getD i [] =
      if k ≤ i ∧ i < rows.length then rows.getD i [] ++ [""]
      else rows.getD i [] := by
  induction rows generalizing k i with
  | nil =>
    simp [appendBlankFrom]
  | cons r rs ih =>
    cases k with
    | zero =>
      cases i with
      | zero => simp [appendBlankFrom]
      | succ i2 =>
        have := ih 0 i2
        simp only [appendBlankFrom, List.getD_cons_succ, List.length_cons]
        rw [this]
        by_cases h : i2 < rs.length
        · rw [if_pos ⟨Nat.zero_le _, h⟩, if_pos ⟨Nat.zero_le _, by omega⟩]
        · rw [if_neg (by omega), if_neg (by omega)]
    | succ k2 =>
      cases i with
      | zero =>
        simp only [appendBlankFrom, List.getD_cons_zero]
        rw [if_neg (by omega)]
      | succ i2 =>
        have := ih k2 i2
        simp only [appendBlankFrom, List.getD_cons_succ, List.length_cons]
        rw [this]
        by_cases h : k2 ≤ i2 ∧ i2 < rs.length
        · rw [if_pos h, if_pos ⟨by omega, by omega⟩]
        · rw [if_neg h, if_neg (by omega)]

/-! ## C4: header rows are located by sentinel scan, absence is fatal -/

theorem lastSentinelIdx_some {s : String} {rows : List (List String)} {i : Nat}
    (h : lastSentinelIdx s rows = some i) :
    i < rows.length ∧ firstCellIs s (rows.getD i []) = true := by
  induction rows generalizing i with
  | nil => cases h
  | cons r rs ih =>
    rw [lastSentinelIdx] at h
    cases hrec : lastSentinelIdx s rs with
    | some j =>
      rw [hrec] at h
      injection h with h2
      subst h2
      obtain ⟨hlt, hcell⟩ := ih hrec
      exact ⟨by simpa using Nat.succ_lt_succ hlt, by simpa using hcell⟩
    | none =>
      rw [hrec] at h
      by_cases hc : firstCellIs s r = true
      · rw [if_pos hc] at h
        injection h with h2
        subst h2
        exact ⟨by simp, by simpa using hc⟩
      · rw [if_neg hc] at h
        cases h

theorem lastSentinelIdx_none {s : String} {rows : List (List String)} :
    lastSentinelIdx s rows = none ↔ ∀ r ∈ rows, firstCellIs s r = false := by
  induction rows with
  | nil => simp [lastSentinelIdx]
  | cons r rs ih =>
    rw [lastSentinelIdx]
    cases hrec : lastSentinelIdx s rs with
    | some j =>
      simp only [List.mem_cons]
      constructor
      · intro h
        cases h
      · intro hall
        have : lastSentinelIdx s rs = none := ih.2 (fun q hq => hall q (Or.inr hq))
        rw [hrec] at this
        cases this
    | none =>
      by_cases hc : firstCellIs s r = true
      · rw [if_pos hc]
        simp only [List.mem_cons]
        constructor
        · intro h
          cases h
        · intro hall
          rw [hall r (Or.inl rfl)] at hc
          cases hc
      · rw [if_neg hc]
        simp only [List.mem_cons]
        constructor
        · intro _ q hq
          rcases hq with hq | hq
          · subst hq
            exact Bool.eq_false_iff.2 hc
          · exact ih.1 hrec q hq
        · intro _
          trivial

theorem headerRows_ne {rows : List (List String)} {d m : Nat}
    (hd : lastSentinelIdx "Date" rows = some d)
    (hm : lastSentinelIdx "Issue" rows = some m) : d ≠ m := by
  intro hdm
  obtain ⟨_, hcd⟩ := lastSentinelIdx_some hd
  obtain ⟨_, hcm⟩ := lastSentinelIdx_some hm
  rw [hdm] at hcd
  cases hrow : rows.getD m [] with
  | nil =>
    rw [hrow] at hcd
    cases hcd
  | cons c cs =>
    rw [hrow] at hcd hcm
    have h1 : c = "Date" := by simpa [firstCellIs] using hcd
    have h2 : c = "Issue" := by simpa [firstCellIs] using hcm
    rw [h1] at h2
    exact absurd h2 (by decide)

/-- C4 (amended): in the refactored script, `findHeaderRows` locates the
date and issue rows by the content of the rows' first cells — an index is
returned only for a row whose first cell equals the sentinel and `none`
exactly when no row carries the sentinel — and when either sentinel is
missing, the whole synchronization fails with the header error before any
mutation: the returned document is no document at all, only the error.
The legacy script instead uses hardcoded row indices 11/12 and mutates
regardless; see the counterexample. -/
theorem header_rows_by_sentinel_scan (g : Grid) :
    (∀ d, (findHeaderRows g).1 = some d →
      d < g.rows.length ∧ firstCellIs "Date" (g.rows.getD d []) = true) ∧
    (∀ m, (findHeaderRows g).2 = some m →
      m < g.rows.length ∧ firstCellIs "Issue" (g.rows.getD m []) = true) ∧
    ((findHeaderRows g).1 = none ↔ ∀ r ∈ g.rows, firstCellIs "Date" r = false) ∧
    ((findHeaderRows g).2 = none ↔ ∀ r ∈ g.rows, firstCellIs "Issue" r = false) ∧
    (((findHeaderRows g).1 = none ∨ (findHeaderRows g).2 = none) →
      ∀ files label meta, updateTransmittal g files label meta =
        .error "Could not find header rows in the transmittal file.") := by
  refine ⟨fun d hd => lastSentinelIdx_some hd,
    fun m hm => lastSentinelIdx_some hm,
    lastSentinelIdx_none, lastSentinelIdx_none, ?_⟩
  intro hnone files label meta
  unfold updateTransmittal findOrCreateIssueColumn
  rcases hnone with hnone | hnone
  · cases hm : lastSentinelIdx "Issue" g.rows with
    | none =>
      rw [show findHeaderRows g = (none, none) from Prod.ext hnone hm]
    | some m =>
      rw [show findHeaderRows g = (none, some m) from Prod.ext hnone hm]
  · cases hd : lastSentinelIdx "Date" g.rows with
    | none =>
      rw [show findHeaderRows g = (none, none) from Prod.ext hd hnone]
    | some d =>
      rw [show findHeaderRows g = (some d, none) from Prod.ext hd hnone]

/-- C4 witness: a grid with no sentinel rows is rejected unchanged. -/
theorem header_rows_by_sentinel_scan_witness :
    updateTransmittal ⟨[["x"]]⟩ ["A_B.pdf"] "2026-10-12" "TP (PDF)" =
      .error "Could not find header rows in the transmittal file." :=
  (header_rows_by_sentinel_scan ⟨[["x"]]⟩).2.2.2.2 (Or.inl rfl)
    ["A_B.pdf"] "2026-10-12" "TP (PDF)"

/-! ## C2 amended: writes hit only the current issue's column -/

theorem upsertCell_getD_ne (row : List String) (colIdx j : Nat) (t : String)
    (hj : j ≠ colIdx) : (upsertCell row colIdx t).getD j "" = row.getD j "" := by
  unfold upsertCell
  rw [getD_set_ne_str _ _ _ _ (fun h => hj h.symm), getD_append_blank]

theorem getD_rows_append_left (rows : List (List String)) (r : List String)
    (i : Nat) (h : i < rows.length) : (rows ++ [r]).getD i [] = rows.getD i [] := by
  rw [List.getD_eq_getElem?_getD, List.getElem?_append, if_pos h,
    ← List.getD_eq_getElem?_getD]

/-- One `_update_matrix` iteration can only grow a row. -/
theorem updateMatrixStep_row_length (colIdx m : Nat) (dr : List (String × Nat))
    (rows : List (List String)) (en : String × String × String) (i : Nat) :
    (rows.getD i []).length ≤
      ((updateMatrixStep colIdx m dr rows en).getD i []).length := by
  unfold updateMatrixStep
  cases drLookup dr en.1 with
  | some i0 =>
    by_cases hii : i0 = i
    · subst hii
      by_cases hlt : i0 < rows.length
      · rw [getD_rows_set_self _ _ _ hlt]
        unfold upsertCell
        rw [List.length_set, List.length_append, List.length_replicate]
        omega
      · rw [List.getD_eq_default rows _ (by omega)]
        simp
    · rw [getD_rows_set_ne _ _ _ _ hii]
  | none =>
    by_cases hlt : i < rows.length
    · rw [getD_rows_append_left _ _ _ hlt]
    · rw [List.getD_eq_default rows _ (by omega)]
      simp

/-- One `_update_matrix` iteration never touches an existing cell outside
the issue column. -/
theorem updateMatrixStep_preserves (colIdx m : Nat) (dr : List (String × Nat))
    (rows : List (List String)) (en : String × String × String) (i j : Nat)
    (hj : j ≠ colIdx) (hjlen : j < (rows.getD i []).length) :
    ((updateMatrixStep colIdx m dr rows en).getD i []).getD j "" =
      (rows.getD i []).getD j "" := by
  unfold updateMatrixStep
  cases drLookup dr en.1 with
  | some i0 =>
    dsimp only
    by_cases hii : i0 = i
    · subst hii
      by_cases hlt : i0 < rows.length
      · rw [getD_rows_set_self _ _ _ hlt, upsertCell_getD_ne _ _ _ _ hj]
      · rw [List.getD_eq_default rows _ (by omega)] at hjlen
        simp at hjlen
    · rw [getD_rows_set_ne _ _ _ _ hii]
  | none =>
    dsimp only
    by_cases hlt : i < rows.length
    · rw [getD_rows_append_left _ _ _ hlt]
    · rw [List.getD_eq_default rows _ (by omega)] at hjlen
      simp at hjlen

/-- The `_update_matrix` fold never touches an existing cell outside the
issue column, and only grows the table. -/
theorem matrixFold_preserves (colIdx m : Nat) (dr : List (String × Nat))
    (issued : List (String × String × String)) :
    ∀ rows : List (List String),
      (∀ i j, j ≠ colIdx → j < (rows.getD i []).length →
        ((issued.foldl (updateMatrixStep colIdx m dr) rows).getD i []).getD j "" =
          (rows.getD i []).getD j "") ∧
      rows.length ≤ (issued.foldl (updateMatrixStep colIdx m dr) rows).length := by
  induction issued with
  | nil => exact fun rows => ⟨fun i j _ _ => rfl, Nat.le_refl _⟩
  | cons en ens ih =>
    intro rows
    rw [List.foldl_cons]
    obtain ⟨ihc, ihl⟩ := ih (updateMatrixStep colIdx m dr rows en)
    have hsteplen : rows.length ≤ (updateMatrixStep colIdx m dr rows en).length := by
      unfold updateMatrixStep
      cases drLookup dr en.1 with
      | some i0 => rw [List.length_set]
      | none => simp
    refine ⟨fun i j hj hjlen => ?_, Nat.le_trans hsteplen ihl⟩
    have hlift : j < ((updateMatrixStep colIdx m dr rows en).getD i []).length :=
      Nat.lt_of_lt_of_le hjlen (updateMatrixStep_row_length colIdx m dr rows en i)
    rw [ihc i j hj hlift, updateMatrixStep_preserves colIdx m dr rows en i j hj hjlen]

theorem padRows_length (rows : List (List String)) (n : Nat) :
    (padRows rows n).length = rows.length + (n - rows.length) := by
  unfold padRows
  rw [List.length_append, List.length_replicate]

theorem getD_append_single_blank (l : List String) (n : Nat) :
    (l ++ [""]).getD n "" = l.getD n "" := by
  have h := getD_append_blank l 1 n
  simpa using h

/-- `_find_or_create_issue_column` never changes an existing cell outside
the returned column, and only grows rows. -/
theorem findOrCreate_preserves_cells {g : Grid} {label meta : String}
    {g1 : Grid} {c : Nat}
    (h : findOrCreateIssueColumn g label meta = .ok (g1, c)) :
    (∀ i j, j ≠ c → j < (g.rows.getD i []).length →
      getCell g1 i j = getCell g i j) ∧
    (∀ i, (g.rows.getD i []).length ≤ (g1.rows.getD i []).length) := by
  unfold findOrCreateIssueColumn at h
  rcases hfh : findHeaderRows g with ⟨od, om⟩
  rw [hfh] at h
  cases od with
  | none =>
    cases om with
    | none => exact Except.noConfusion h
    | some m => exact Except.noConfusion h
  | some d =>
    cases om with
    | none => exact Except.noConfusion h
    | some m =>
      have hd : lastSentinelIdx "Date" g.rows = some d := congrArg Prod.fst hfh
      have hm : lastSentinelIdx "Issue" g.rows = some m := congrArg Prod.snd hfh
      obtain ⟨hdlt, hdcell⟩ := lastSentinelIdx_some hd
      obtain ⟨hmlt, hmcell⟩ := lastSentinelIdx_some hm
      have hdm : d ≠ m := headerRows_ne hd hm
      have hplen : (padRows g.rows (m + 2)).length = g.rows.length +
          ((m + 2) - g.rows.length) := padRows_length _ _
      have hpd : (padRows g.rows (m + 2)).getD d [] = g.rows.getD d [] := by
        rw [getD_padRows, if_pos hdlt]
      have hpm : (padRows g.rows (m + 2)).getD m [] = g.rows.getD m [] := by
        rw [getD_padRows, if_pos hmlt]
      dsimp only at h
      cases hidx : findIdxFirst (fun c2 => c2 == label)
          ((padRows g.rows (m + 2)).getD d []) with
      | some colIdx =>
        rw [hidx] at h
        injection h with h2
        have hg1 : g1 = ⟨foundColUpdate (padRows g.rows (m + 2)) m colIdx meta⟩ :=
          (congrArg Prod.fst h2).symm
        have hcc : c = colIdx := (congrArg Prod.snd h2).symm
        subst hg1
        rw [hcc]
        constructor
        · intro i j hj hjlen
          unfold getCell foundColUpdate
          dsimp only
          by_cases hml : colIdx < ((padRows g.rows (m + 2)).getD m []).length
          · rw [if_pos hml]
            by_cases him : i = m
            · subst him
              rw [getD_rows_set_self _ _ _ (by omega),
                getD_set_ne_str _ _ _ _ (fun hh => hj hh.symm), hpm]
            · rw [getD_rows_set_ne _ _ _ _ (fun hh => him hh.symm), getD_padRows]
              by_cases hig : i < g.rows.length
              · rw [if_pos hig]
              · rw [List.getD_eq_default g.rows _ (by omega)] at hjlen
                simp at hjlen
          · rw [if_neg hml, getD_padRows]
            by_cases hig : i < g.rows.length
            · rw [if_pos hig]
            · rw [List.getD_eq_default g.rows _ (by omega)] at hjlen
              simp at hjlen
        · intro i
          unfold foundColUpdate
          by_cases hml : colIdx < ((padRows g.rows (m + 2)).getD m []).length
          · rw [if_pos hml]
            by_cases him : i = m
            · subst him
              rw [getD_rows_set_self _ _ _ (by omega), List.length_set, hpm]
            · rw [getD_rows_set_ne _ _ _ _ (fun hh => him hh.symm), getD_padRows]
              by_cases hig : i < g.rows.length
              · rw [if_pos hig]
              · rw [if_neg hig, List.getD_eq_default g.rows _ (by omega)]
          · rw [if_neg hml, getD_padRows]
            by_cases hig : i < g.rows.length
            · rw [if_pos hig]
            · rw [if_neg hig, List.getD_eq_default g.rows _ (by omega)]
      | none =>
        rw [hidx] at h
        injection h with h2
        have hg1 : g1 =
            ⟨createColUpdate (padRows g.rows (m + 2)) d m label meta⟩ :=
          (congrArg Prod.fst h2).symm
        subst hg1
        have hrow1 : ∀ i,
            (((padRows g.rows (m + 2)).set d ((padRows g.rows (m + 2)).getD d [] ++ [label])).set m
                ((((padRows g.rows (m + 2)).set d ((padRows g.rows (m + 2)).getD d [] ++ [label])).getD m []) ++ [meta])).getD i [] =
              if i = d then g.rows.getD d [] ++ [label]
              else if i = m then g.rows.getD m [] ++ [meta]
              else (padRows g.rows (m + 2)).getD i [] := by
          intro i
          by_cases him : i = m
          · subst him
            rw [getD_rows_set_self _ _ _ (by rw [List.length_set]; omega),
              getD_rows_set_ne _ _ _ _ hdm, hpm, if_neg (fun hh => hdm hh.symm),
              if_pos rfl]
          · rw [getD_rows_set_ne _ _ _ _ (fun hh => him hh.symm)]
            by_cases hid : i = d
            · subst hid
              rw [getD_rows_set_self _ _ _ (by omega), hpd, if_pos rfl]
            · rw [getD_rows_set_ne _ _ _ _ (fun hh => hid hh.symm),
                if_neg hid, if_neg him]
        constructor
        · intro i j hj hjlen
          unfold getCell createColUpdate
          dsimp only
          rw [appendBlankFrom_getD]
          have hbody : ∀ br : List String,
              br = (if i = d then g.rows.getD d [] ++ [label]
                else if i = m then g.rows.getD m [] ++ [meta]
                else (padRows g.rows (m + 2)).getD i []) →
              br.getD j "" = (g.rows.getD i []).getD j "" := by
            intro br hbr
            subst hbr
            by_cases hid : i = d
            · subst hid
              rw [if_pos rfl, getD_append_left_str _ _ _ hjlen]
            · rw [if_neg hid]
              by_cases him : i = m
              · subst him
                rw [if_pos rfl, getD_append_left_str _ _ _ hjlen]
              · rw [if_neg him, getD_padRows]
                by_cases hig : i < g.rows.length
                · rw [if_pos hig]
                · rw [List.getD_eq_default g.rows _ (by omega)] at hjlen
                  simp at hjlen
          split
          · rw [getD_append_single_blank, hrow1 i]
            exact hbody _ rfl
          · rw [hrow1 i]
            exact hbody _ rfl
        · intro i
          unfold createColUpdate
          dsimp only
          rw [appendBlankFrom_getD]
          have hbody : ((if i = d then g.rows.getD d [] ++ [label]
              else if i = m then g.rows.getD m [] ++ [meta]
              else (padRows g.rows (m + 2)).getD i []) : List String).length ≥
                (g.rows.getD i []).length := by
            by_cases hid : i = d
            · subst hid
              rw [if_pos rfl, List.length_append]
              omega
            · rw [if_neg hid]
              by_cases him : i = m
              · subst him
                rw [if_pos rfl, List.length_append]
                omega
              · rw [if_neg him, getD_padRows]
                by_cases hig : i < g.rows.length
                · rw [if_pos hig]
                · rw [if_neg hig, List.getD_eq_default g.rows _ (by omega)]
            
          split
          · rw [hrow1 i, List.length_append]
            have := hbody
            omega
          · rw [hrow1 i]
            exact hbody

/-- C2 amended: a successful synchronization either persists nothing (an
empty scan) or writes only into the column returned by
`findOrCreateIssueColumn` for its own issue label: every pre-existing
cell outside that column keeps its text.  Revisions recorded under other
issue columns therefore never change, while the own column's cell is
overwritten unconditionally (and may decrease, see the counterexample). -/
theorem later_sync_writes_only_own_column {g : Grid} {files : List String}
    {label meta : String} {g2 : Grid}
    (h : updateTransmittal g files label meta = .ok g2) :
    g2 = g ∨ ∃ g1 colIdx,
      findOrCreateIssueColumn g label meta = .ok (g1, colIdx) ∧
      ∀ i j, j ≠ colIdx → j < (g.rows.getD i []).length →
        getCell g2 i j = getCell g i j := by
  unfold updateTransmittal at h
  cases hfc : findOrCreateIssueColumn g label meta with
  | error e =>
    rw [hfc] at h
    exact Except.noConfusion h
  | ok p =>
    obtain ⟨g1, colIdx⟩ := p
    rw [hfc] at h
    dsimp only at h
    cases hscan : scanForDrawings files with
    | nil =>
      rw [hscan] at h
      injection h with h2
      exact Or.inl h2.symm
    | cons e0 es =>
      rw [hscan] at h
      injection h with h2
      refine Or.inr ⟨g1, colIdx, rfl, ?_⟩
      intro i j hj hjlen
      obtain ⟨hpres, hmono⟩ := findOrCreate_preserves_cells hfc
      rw [← h2]
      unfold updateMatrix
      rcases hfh : findHeaderRows g1 with ⟨od, om⟩
      cases om with
      | none => exact hpres i j hj hjlen
      | some m =>
        have hlift : j < (g1.rows.getD i []).length :=
          Nat.lt_of_lt_of_le hjlen (hmono i)
        obtain ⟨hfold, _⟩ :=
          matrixFold_preserves colIdx m (getDrawingRows g1) (e0 :: es) g1.rows
        have hcell : getCell
            (⟨(e0 :: es).foldl
              (updateMatrixStep colIdx m (getDrawingRows g1)) g1.rows⟩ : Grid) i j =
            getCell g1 i j := hfold i j hj hlift
        rw [hcell]
        exact hpres i j hj hjlen

/-- C2 amended-theorem witness at the counterexample's second run: the
cell of the older issue column (here the date-row and drawing-number
cells untouched by the write) is preserved. -/
theorem later_sync_writes_only_own_column_witness :
    (⟨[["Date", "2026-10-12"], ["Issue", "RE (PDF)"], [""], ["X", "A"]]⟩ : Grid) =
        ⟨[["Date", "2026-10-12"], ["Issue", "TP (PDF)"], [""], ["X", "B"]]⟩ ∨
      ∃ g1 colIdx,
        findOrCreateIssueColumn
            ⟨[["Date", "2026-10-12"], ["Issue", "TP (PDF)"], [""], ["X", "B"]]⟩
            "2026-10-12" "RE (PDF)" = .ok (g1, colIdx) ∧
        ∀ i j, j ≠ colIdx →
          j < (((⟨[["Date", "2026-10-12"], ["Issue", "TP (PDF)"], [""], ["X", "B"]]⟩ : Grid)).rows.getD i []).length →
          getCell ⟨[["Date", "2026-10-12"], ["Issue", "RE (PDF)"], [""], ["X", "A"]]⟩ i j =
            getCell ⟨[["Date", "2026-10-12"], ["Issue", "TP (PDF)"], [""], ["X", "B"]]⟩ i j :=
  @later_sync_writes_only_own_column
    ⟨[["Date", "2026-10-12"], ["Issue", "TP (PDF)"], [""], ["X", "B"]]⟩
    ["X_A.pdf"] "2026-10-12" "RE (PDF)"
    ⟨[["Date", "2026-10-12"], ["Issue", "RE (PDF)"], [""], ["X", "A"]]⟩ rfl

/-! ## C9: shape of a newly appended drawing row -/

/-- C9 (amended): in the refactored script, for a column index of at
least 1 (column 0 is the drawing-number column) that lies within the
header row, the appended row has the base name in cell 0, the revision
text exactly at the column index, blank cells at every index between,
and exactly as many cells as the header row.  The legacy script instead
places the revision at the column index plus one, because it appends a
drawing cell, a title cell, and column-index-minus-one filler cells
before the revision cell; see the counterexample. -/
theorem append_drawing_row_shape (dn rev : String) (colIdx headerCells : Nat)
    (h0 : 0 < colIdx) (hh : colIdx < headerCells) :
    (appendDrawingRow dn rev colIdx headerCells).getD 0 "" = dn ∧
    (appendDrawingRow dn rev colIdx headerCells).getD colIdx "" = rev ∧
    (∀ j, 0 < j → j < colIdx →
      (appendDrawingRow dn rev colIdx headerCells).getD j "" = "") ∧
    (appendDrawingRow dn rev colIdx headerCells).length = headerCells := by
  cases colIdx with
  | zero => exact absurd h0 (by omega)
  | succ k =>
    unfold appendDrawingRow
    have hne : ¬(k + 1 = 0) := by omega
    simp only [if_neg hne]
    have hsub : k + 1 - 1 = k := by omega
    rw [hsub]
    refine ⟨?_, ?_, ?_, ?_⟩
    · rw [getD_append_blank]
      rfl
    · rw [getD_append_blank, List.getD_cons_succ, List.getD_eq_getElem?_getD,
        List.getElem?_append_right (by simp)]
      simp
    · intro j hj0 hjk
      cases j with
      | zero => exact absurd hj0 (by omega)
      | succ j2 =>
        rw [getD_append_blank, List.getD_cons_succ, List.getD_eq_getElem?_getD,
          List.getElem?_append, if_pos (by simp; omega), List.getElem?_replicate,
          if_pos (by omega)]
        rfl
    · simp only [List.length_append, List.length_replicate, List.length_cons,
        List.length_nil]
      omega

/-- C9 witness: a concrete appended row for column 2 with a header of 4
cells. -/
theorem append_drawing_row_shape_witness :
    (appendDrawingRow "X" "B" 2 4).getD 2 "" = "B" ∧
      (appendDrawingRow "X" "B" 2 4).length = 4 :=
  ⟨(append_drawing_row_shape "X" "B" 2 4 (by decide) (by decide)).2.1,
    (append_drawing_row_shape "X" "B" 2 4 (by decide) (by decide)).2.2.2⟩

/-! ## C5: idempotence of `findOrCreateIssueColumn` -/

theorem findIdxFirst_some_getD {p : String → Bool} {l : List String} {i : Nat}
    (h : findIdxFirst p l = some i) :
    i < l.length ∧ p (l.getD i "") = true := by
  induction l generalizing i with
  | nil => cases h
  | cons a as ih =>
    rw [findIdxFirst] at h
    by_cases hp : p a = true
    · rw [if_pos hp] at h
      injection h with h2
      subst h2
      exact ⟨by simp, by simpa using hp⟩
    · rw [if_neg hp] at h
      cases hrec : findIdxFirst p as with
      | none =>
        rw [hrec] at h
        cases h
      | some j =>
        rw [hrec] at h
        injection h with h2
        subst h2
        obtain ⟨hlt, hget⟩ := ih hrec
        exact ⟨by simpa using Nat.succ_lt_succ hlt, by simpa using hget⟩

theorem findIdxFirst_none_iff {p : String → Bool} {l : List String} :
    findIdxFirst p l = none ↔ ∀ x ∈ l, p x = false := by
  induction l with
  | nil => simp [findIdxFirst]
  | cons a as ih =>
    rw [findIdxFirst]
    by_cases hp : p a = true
    · rw [if_pos hp]
      simp only [List.mem_cons]
      constructor
      · intro h
        cases h
      · intro hall
        rw [hall a (Or.inl rfl)] at hp
        cases hp
    · rw [if_neg hp]
      simp only [List.mem_cons]
      constructor
      · intro h q hq
        rcases hq with hq | hq
        · subst hq
          exact Bool.eq_false_iff.2 hp
        · cases hrec : findIdxFirst p as with
          | none => exact ih.1 hrec q hq
          | some j =>
            rw [hrec] at h
            cases h
      · intro hall
        rw [ih.2 (fun q hq => hall q (Or.inr hq))]
        rfl

theorem findIdxFirst_append_single {p : String → Bool} {l : List String}
    (x : String) (hnone : findIdxFirst p l = none) :
    findIdxFirst p (l ++ [x]) =
      if p x then some l.length else none := by
  induction l with
  | nil =>
    rw [List.nil_append, findIdxFirst]
    by_cases hp : p x = true
    · rw [if_pos hp, if_pos hp]
      rfl
    · rw [if_neg hp, if_neg hp]
      rfl
  | cons a as ih =>
    rw [findIdxFirst] at hnone
    by_cases hp : p a = true
    · rw [if_pos hp] at hnone
      cases hnone
    · rw [if_neg hp] at hnone
      have hrec : findIdxFirst p as = none := by
        cases hx : findIdxFirst p as with
        | none => rfl
        | some j =>
          rw [hx] at hnone
          cases hnone
      rw [List.cons_append, findIdxFirst, if_neg hp, ih hrec]
      by_cases hpx : p x = true
      · rw [if_pos hpx, if_pos hpx]
        rfl
      · rw [if_neg hpx, if_neg hpx]
        rfl

theorem getD_mem_str {l : List String} {i : Nat} (h : i < l.length) :
    l.getD i "" ∈ l := by
  rw [List.getD_eq_getElem?_getD, List.getElem?_eq_getElem h]
  exact List.getElem_mem h

theorem countP_pos_of_findIdxFirst {p : String → Bool} {l : List String}
    {i : Nat} (h : findIdxFirst p l = some i) : 0 < l.countP p := by
  obtain ⟨hlt, hget⟩ := findIdxFirst_some_getD h
  exact List.countP_pos_iff.2 ⟨l.getD i "", getD_mem_str hlt, hget⟩

theorem firstCellIs_set_pos (s : String) (l : List String) (k : Nat)
    (hk : 0 < k) (x : String) :
    firstCellIs s (l.set k x) = firstCellIs s l := by
  cases l with
  | nil => rfl
  | cons a as =>
    cases k with
    | zero => exact absurd hk (by omega)
    | succ k2 => rfl

theorem firstCellIs_append_ne_nil (s : String) {l : List String}
    (h : l ≠ []) (l2 : List String) :
    firstCellIs s (l ++ l2) = firstCellIs s l := by
  cases l with
  | nil => exact absurd rfl h
  | cons a as => rfl

theorem firstCellIs_ne_nil {s : String} {l : List String}
    (h : firstCellIs s l = true) : l ≠ [] := by
  cases l with
  | nil => cases h
  | cons a as => simp

theorem firstCellIs_getD_zero {s : String} {l : List String}
    (h : firstCellIs s l = true) : l.getD 0 "" = s := by
  cases l with
  | nil => cases h
  | cons a as => simpa [firstCellIs] using h

theorem padRows_eq_self (rows : List (List String)) (n : Nat)
    (h : n ≤ rows.length) : padRows rows n = rows := by
  unfold padRows
  rw [show n - rows.length = 0 from by omega]
  simp

theorem lastSentinelIdx_append_empties (s : String) (rows : List (List String))
    (k : Nat) :
    lastSentinelIdx s (rows ++ List.replicate k []) = lastSentinelIdx s rows := by
  induction rows with
  | nil =>
    rw [List.nil_append]
    induction k with
    | zero => rfl
    | succ k2 ihk =>
      have h2 : lastSentinelIdx s (List.replicate k2 []) = none := ihk
      simp only [List.replicate_succ, lastSentinelIdx, h2, firstCellIs]
      rfl
  | cons r rs ih =>
    rw [List.cons_append, lastSentinelIdx, lastSentinelIdx, ih]

theorem lastSentinelIdx_congr {s : String} {rows rows2 : List (List String)}
    (hlen : rows2.length = rows.length)
    (hcell : ∀ i, i < rows.length →
      firstCellIs s (rows2.getD i []) = firstCellIs s (rows.getD i [])) :
    lastSentinelIdx s rows2 = lastSentinelIdx s rows := by
  induction rows generalizing rows2 with
  | nil =>
    cases rows2 with
    | nil => rfl
    | cons r2 rs2 => cases hlen
  | cons r rs ih =>
    cases rows2 with
    | nil => cases hlen
    | cons r2 rs2 =>
      have htail : lastSentinelIdx s rs2 = lastSentinelIdx s rs :=
        ih (by simpa using hlen)
          (fun i hi => by simpa using hcell (i + 1) (by simpa using Nat.succ_lt_succ hi))
      rw [lastSentinelIdx, lastSentinelIdx, htail]
      cases lastSentinelIdx s rs with
      | some j => rfl
      | none =>
        have hhead : firstCellIs s r2 = firstCellIs s r := by
          simpa using hcell 0 (by simp)
        rw [hhead]

theorem firstCellIs_append_blank (s : String) (hs : s ≠ "") (l : List String) :
    firstCellIs s (l ++ [""]) = firstCellIs s l := by
  cases l with
  | nil =>
    show ("" == s) = false
    exact beq_eq_false_iff_ne.2 (fun h => hs h.symm)
  | cons a as => rfl

theorem getD_append_self_str (l : List String) (x : String) :
    (l ++ [x]).getD l.length "" = x := by
  rw [List.getD_eq_getElem?_getD, List.getElem?_append_right (Nat.le_refl _),
    Nat.sub_self]
  rfl

/-- The found-column branch never moves the sentinel rows: the write, if
performed, replaces one cell at a positive column index of the meta row. -/
theorem sentinel_stable_found (s : String) (P : List (List String)) (m c : Nat)
    (meta : String) (hc : 0 < c) (hmP : m < P.length) :
    lastSentinelIdx s (foundColUpdate P m c meta) = lastSentinelIdx s P := by
  unfold foundColUpdate
  by_cases hlt : c < (P.getD m []).length
  · rw [if_pos hlt]
    apply lastSentinelIdx_congr
    · rw [List.length_set]
    · intro i hi
      by_cases him : i = m
      · subst him
        rw [getD_rows_set_self _ i _ hmP]
        exact firstCellIs_set_pos s _ c hc meta
      · rw [getD_rows_set_ne _ m i _ (fun h => him h.symm)]
  · rw [if_neg hlt]

/-- The create-column branch never moves the sentinel rows: it appends
cells to the ends of rows, and the sentinel rows are nonempty. -/
theorem sentinel_stable_create (s : String) (hs : s ≠ "")
    (P : List (List String)) (d m : Nat) (label meta : String)
    (hdm : d < m) (hmP : m < P.length)
    (hPd : P.getD d [] ≠ []) (hPm : P.getD m [] ≠ []) :
    lastSentinelIdx s
      (appendBlankFrom
        ((P.set d (P.getD d [] ++ [label])).set m (P.getD m [] ++ [meta]))
        (m + 1)) =
    lastSentinelIdx s P := by
  have hl2 : ((P.set d (P.getD d [] ++ [label])).set m
      (P.getD m [] ++ [meta])).length = P.length := by
    rw [List.length_set, List.length_set]
  apply lastSentinelIdx_congr
  · rw [appendBlankFrom_length, hl2]
  · intro i hi
    rw [appendBlankFrom_getD]
    by_cases him : i = m
    · subst him
      rw [if_neg (fun h => absurd h.1 (by omega))]
      rw [getD_rows_set_self _ i _ (by rw [List.length_set]; exact hmP)]
      exact firstCellIs_append_ne_nil s hPm [meta]
    · by_cases hid : i = d
      · subst hid
        rw [if_neg (fun h => absurd h.1 (by omega))]
        rw [getD_rows_set_ne _ m i _ (fun h => him h.symm)]
        rw [getD_rows_set_self _ i _ (by omega)]
        exact firstCellIs_append_ne_nil s hPd [label]
      · rw [getD_rows_set_ne _ m i _ (fun h => him h.symm),
          getD_rows_set_ne _ d i _ (fun h => hid h.symm)]
        by_cases hmi : m + 1 ≤ i
        · rw [if_pos (And.intro hmi (by omega))]
          exact firstCellIs_append_blank s hs _
        · rw [if_neg (fun h => hmi h.1)]

/-- One call of `_find_or_create_issue_column` on a well-formed grid:
it succeeds, keeps the header rows where they were, leaves exactly one
column carrying the label, writes the meta text into that column's meta
cell, and — when the label is already present — reuses the found column
and leaves the date row untouched. -/
theorem findOrCreate_spec {g : Grid} {label : String} {d m : Nat}
    (meta : String)
    (hd : lastSentinelIdx "Date" g.rows = some d)
    (hm : lastSentinelIdx "Issue" g.rows = some m)
    (hdm : d < m)
    (hlabel : label ≠ "Date")
    (hlen : (g.rows.getD d []).length = (g.rows.getD m []).length)
    (hcount : (g.rows.getD d []).countP (fun x => x == label) ≤ 1) :
    ∃ g1 c1,
      findOrCreateIssueColumn g label meta = Except.ok (g1, c1) ∧
      lastSentinelIdx "Date" g1.rows = some d ∧
      lastSentinelIdx "Issue" g1.rows = some m ∧
      (g1.rows.getD d []).length = (g1.rows.getD m []).length ∧
      (g1.rows.getD d []).countP (fun x => x == label) = 1 ∧
      findIdxFirst (fun x => x == label) (g1.rows.getD d []) = some c1 ∧
      (g1.rows.getD m []).getD c1 "" = meta ∧
      (∀ c, findIdxFirst (fun x => x == label) (g.rows.getD d []) = some c →
        c1 = c ∧ g1.rows.getD d [] = g.rows.getD d []) := by
  have hdS := lastSentinelIdx_some hd
  have hmS := lastSentinelIdx_some hm
  have hdlt : d < g.rows.length := hdS.1
  have hmlt : m < g.rows.length := hmS.1
  have hdrow : (padRows g.rows (m + 2)).getD d [] = g.rows.getD d [] := by
    rw [getD_padRows, if_pos hdlt]
  have hmrow : (padRows g.rows (m + 2)).getD m [] = g.rows.getD m [] := by
    rw [getD_padRows, if_pos hmlt]
  have hPlen : g.rows.length ≤ (padRows g.rows (m + 2)).length := by
    rw [padRows_length]
    omega
  have hsd : lastSentinelIdx "Date" (padRows g.rows (m + 2)) = some d := by
    unfold padRows
    rw [lastSentinelIdx_append_empties]
    exact hd
  have hsm : lastSentinelIdx "Issue" (padRows g.rows (m + 2)) = some m := by
    unfold padRows
    rw [lastSentinelIdx_append_empties]
    exact hm
  have hdne : g.rows.getD d [] ≠ [] := firstCellIs_ne_nil hdS.2
  have hmne : g.rows.getD m [] ≠ [] := firstCellIs_ne_nil hmS.2
  have hhead : (g.rows.getD d []).getD 0 "" = "Date" := firstCellIs_getD_zero hdS.2
  have hdlt2 : d < (padRows g.rows (m + 2)).length := lt_of_lt_of_le hdlt hPlen
  have hmlt2 : m < (padRows g.rows (m + 2)).length := lt_of_lt_of_le hmlt hPlen
  cases hfind : findIdxFirst (fun x => x == label)
      ((padRows g.rows (m + 2)).getD d []) with
  | some c =>
    have hres : findOrCreateIssueColumn g label meta =
        Except.ok (⟨foundColUpdate (padRows g.rows (m + 2)) m c meta⟩, c) := by
      simp only [findOrCreateIssueColumn, findHeaderRows, hd, hm, hfind]
    obtain ⟨hclt, hcp⟩ := findIdxFirst_some_getD hfind
    have hc0 : 0 < c := by
      rcases Nat.eq_zero_or_pos c with hc | hc
      · subst hc
        rw [hdrow, hhead] at hcp
        exact absurd (eq_of_beq hcp) (fun h => hlabel h.symm)
      · exact hc
    rw [hdrow] at hclt
    have hcmlen : c < ((padRows g.rows (m + 2)).getD m []).length := by
      rw [hmrow]
      omega
    have hfound : foundColUpdate (padRows g.rows (m + 2)) m c meta =
        (padRows g.rows (m + 2)).set m
          (((padRows g.rows (m + 2)).getD m []).set c meta) := by
      unfold foundColUpdate
      rw [if_pos hcmlen]
    have hfindg : findIdxFirst (fun x => x == label) (g.rows.getD d []) = some c := by
      rw [← hdrow]
      exact hfind
    refine ⟨_, _, hres, ?_, ?_, ?_, ?_, ?_, ?_, ?_⟩
    · dsimp only
      rw [sentinel_stable_found "Date" _ m c meta hc0 hmlt2]
      exact hsd
    · dsimp only
      rw [sentinel_stable_found "Issue" _ m c meta hc0 hmlt2]
      exact hsm
    · dsimp only
      rw [hfound, getD_rows_set_ne _ m d _ (by omega),
        getD_rows_set_self _ m _ hmlt2, List.length_set, hdrow, hmrow]
      exact hlen
    · dsimp only
      rw [hfound, getD_rows_set_ne _ m d _ (by omega), hdrow]
      have hpos : 0 < (g.rows.getD d []).countP (fun x => x == label) := by
        have hp := countP_pos_of_findIdxFirst hfind
        rwa [hdrow] at hp
      omega
    · dsimp only
      rw [hfound, getD_rows_set_ne _ m d _ (by omega)]
      exact hfind
    · dsimp only
      rw [hfound, getD_rows_set_self _ m _ hmlt2]
      exact getD_set_self_str _ c meta hcmlen
    · intro c2 hc2
      rw [hfindg] at hc2
      injection hc2 with hcc
      refine ⟨hcc, ?_⟩
      dsimp only
      rw [hfound, getD_rows_set_ne _ m d _ (by omega), hdrow]
  | none =>
    have hres : findOrCreateIssueColumn g label meta =
        Except.ok (⟨createColUpdate (padRows g.rows (m + 2)) d m label meta⟩,
          ((createColUpdate (padRows g.rows (m + 2)) d m label meta).getD d []).length - 1) := by
      simp only [findOrCreateIssueColumn, findHeaderRows, hd, hm, hfind]
    have hcreate : createColUpdate (padRows g.rows (m + 2)) d m label meta =
        appendBlankFrom
          (((padRows g.rows (m + 2)).set d
              ((padRows g.rows (m + 2)).getD d [] ++ [label])).set m
            ((padRows g.rows (m + 2)).getD m [] ++ [meta]))
          (m + 1) := by
      unfold createColUpdate
      rw [getD_rows_set_ne _ d m _ (by omega)]
    have hrowd : (createColUpdate (padRows g.rows (m + 2)) d m label meta).getD d [] =
        g.rows.getD d [] ++ [label] := by
      rw [hcreate, appendBlankFrom_getD,
        if_neg (fun h => absurd h.1 (by omega)),
        getD_rows_set_ne _ m d _ (by omega),
        getD_rows_set_self _ d _ hdlt2, hdrow]
    have hrowm : (createColUpdate (padRows g.rows (m + 2)) d m label meta).getD m [] =
        g.rows.getD m [] ++ [meta] := by
      rw [hcreate, appendBlankFrom_getD,
        if_neg (fun h => absurd h.1 (by omega)),
        getD_rows_set_self _ m _ (by rw [List.length_set]; exact hmlt2), hmrow]
    have hc1 : ((createColUpdate (padRows g.rows (m + 2)) d m label meta).getD d []).length - 1 =
        (g.rows.getD d []).length := by
      rw [hrowd, List.length_append]
      simp
    have hfindPd : findIdxFirst (fun x => x == label) (g.rows.getD d []) = none := by
      rw [← hdrow]
      exact hfind
    refine ⟨_, _, hres, ?_, ?_, ?_, ?_, ?_, ?_, ?_⟩
    · dsimp only
      rw [hcreate,
        sentinel_stable_create "Date" (by decide) _ d m label meta hdm hmlt2
          (by rw [hdrow]; exact hdne) (by rw [hmrow]; exact hmne)]
      exact hsd
    · dsimp only
      rw [hcreate,
        sentinel_stable_create "Issue" (by decide) _ d m label meta hdm hmlt2
          (by rw [hdrow]; exact hdne) (by rw [hmrow]; exact hmne)]
      exact hsm
    · dsimp only
      rw [hrowd, hrowm, List.length_append, List.length_append, hlen]
      rfl
    · dsimp only
      rw [hrowd, List.countP_append]
      have h0 : (g.rows.getD d []).countP (fun x => x == label) = 0 := by
        rw [List.countP_eq_zero]
        intro a ha
        have hfa := findIdxFirst_none_iff.1 hfindPd a ha
        simp [hfa]
      rw [h0]
      simp [List.countP_cons]
    · dsimp only
      rw [hrowd, findIdxFirst_append_single label hfindPd, if_pos (by simp),
        List.length_append]
      simp
    · dsimp only
      rw [hrowm, hc1, hlen]
      exact getD_append_self_str _ meta
    · intro c2 hc2
      rw [hfindPd] at hc2
      cases hc2

/-- **C5.** Calling `findOrCreateIssueColumn` twice in succession with the
same label but different meta values yields exactly one column for that
label (the second call reuses the column the first call found or created,
so the column indices coincide and the date row keeps one cell carrying
the label), the meta cell of that column equals the second call's meta
value, and the number of date-row columns after the second call equals
the number after the first call. -/
theorem find_or_create_idempotent
    {g g1 g2 : Grid} {label meta1 meta2 : String} {d m c1 c2 : Nat}
    (hd : lastSentinelIdx "Date" g.rows = some d)
    (hm : lastSentinelIdx "Issue" g.rows = some m)
    (hdm : d < m)
    (hlabel : label ≠ "Date")
    (hlen : (g.rows.getD d []).length = (g.rows.getD m []).length)
    (hcount : (g.rows.getD d []).countP (fun x => x == label) ≤ 1)
    (h1 : findOrCreateIssueColumn g label meta1 = Except.ok (g1, c1))
    (h2 : findOrCreateIssueColumn g1 label meta2 = Except.ok (g2, c2)) :
    c2 = c1 ∧
    (g2.rows.getD d []).countP (fun x => x == label) = 1 ∧
    (g2.rows.getD m []).getD c2 "" = meta2 ∧
    (g2.rows.getD d []).length = (g1.rows.getD d []).length := by
  obtain ⟨g1', c1', heq1, hsd1, hsm1, hlen1, hcount1, hfind1, hmeta1, hdet1⟩ :=
    findOrCreate_spec meta1 hd hm hdm hlabel hlen hcount
  rw [heq1] at h1
  injection h1 with h1p
  injection h1p with hg1 hc1
  subst hg1
  subst hc1
  obtain ⟨g2', c2', heq2, hsd2, hsm2, hlen2, hcount2, hfind2, hmeta2, hdet2⟩ :=
    findOrCreate_spec meta2 hsd1 hsm1 hdm hlabel hlen1 (by omega)
  rw [heq2] at h2
  injection h2 with h2p
  injection h2p with hg2 hc2
  subst hg2
  subst hc2
  obtain ⟨hcc, hrow⟩ := hdet2 _ hfind1
  exact ⟨hcc, hcount2, hmeta2, by rw [hrow]⟩

/-- Witness for C5: a concrete two-column header grid, the first call
creates the "2026-10-12" column with meta "TP (PDF)", the second call
finds it again and overwrites the meta cell with "RE (PDF)". -/
theorem find_or_create_idempotent_witness :
    (1 : Nat) = 1 ∧
    ((Grid.mk [["Date", "2026-10-12"], ["Issue", "RE (PDF)"], [""]]).rows.getD 0 []).countP
      (fun x => x == "2026-10-12") = 1 ∧
    ((Grid.mk [["Date", "2026-10-12"], ["Issue", "RE (PDF)"], [""]]).rows.getD 1 []).getD 1 "" =
      "RE (PDF)" ∧
    ((Grid.mk [["Date", "2026-10-12"], ["Issue", "RE (PDF)"], [""]]).rows.getD 0 []).length =
      ((Grid.mk [["Date", "2026-10-12"], ["Issue", "TP (PDF)"], [""]]).rows.getD 0 []).length :=
  @find_or_create_idempotent
    (Grid.mk [["Date"], ["Issue"]])
    (Grid.mk [["Date", "2026-10-12"], ["Issue", "TP (PDF)"], [""]])
    (Grid.mk [["Date", "2026-10-12"], ["Issue", "RE (PDF)"], [""]])
    "2026-10-12" "TP (PDF)" "RE (PDF)" 0 1 1 1
    (by decide) (by decide) (by decide) (by decide) (by decide) (by decide)
    rfl rfl

/-! ## The legacy script `update_transmittal_matrix.py` -/

/-- The legacy `find_header_rows`: `date_row_idx = 11`, `meta_row_idx = 12`,
hardcoded — the table's contents are never inspected. -/
def legacyFindHeaderRows (_g : Grid) : Nat × Nat := (11, 12)

/-- The legacy create-branch data-row loop
(`for i in range(meta_row_idx + 1, len(rows))`): for every row from index
`k` on, pad the row to two cells (drawing number and title), then append
one blank cell for the new issue column. -/
def legacyBlankFrom : List (List String) → Nat → List (List String)
  | [], _ => []
  | r :: rs, 0 =>
    ((r ++ List.replicate (2 - r.length) "") ++ [""]) :: legacyBlankFrom rs 0
  | r :: rs, k + 1 => r :: legacyBlankFrom rs k

/-- The legacy `find_or_create_issue_column`: header rows fixed at 11/12,
the table padded to 14 rows unconditionally (`while len(rows) <=
meta_row_idx + 1`), then the found branch overwrites the meta cell when
the meta row is long enough, and the create branch appends the label and
meta cells and runs the legacy data-row loop from row 13, returning
`len(date_row cells) - 1` read from the live date row. -/
def legacyFindOrCreateIssueColumn (g : Grid) (label meta : String) :
    Grid × Nat :=
  match findIdxFirst (fun c => c == label) ((padRows g.rows 14).getD 11 []) with
  | some colIdx => (⟨foundColUpdate (padRows g.rows 14) 12 colIdx meta⟩, colIdx)
  | none =>
    (⟨legacyBlankFrom
        (((padRows g.rows 14).set 11 ((padRows g.rows 14).getD 11 [] ++ [label])).set 12
          ((padRows g.rows 14).getD 12 [] ++ [meta]))
        13⟩,
      ((legacyBlankFrom
          (((padRows g.rows 14).set 11 ((padRows g.rows 14).getD 11 [] ++ [label])).set 12
            ((padRows g.rows 14).getD 12 [] ++ [meta]))
          13).getD 11 []).length - 1)

/-- The legacy new-row branch of `update_transmittal`: a drawing-number
cell, an empty title cell, `colIdx - 1` blank filler cells, the revision
cell, right-padded with blank cells while shorter than the header row. -/
def legacyAppendDrawingRow (dn rev : String) (colIdx headerCells : Nat) :
    List String :=
  (dn :: "" :: (List.replicate (colIdx - 1) "" ++ [rev])) ++
    List.replicate
      (headerCells -
        (dn :: "" :: (List.replicate (colIdx - 1) "" ++ [rev])).length) ""

/-- **C4 (counterexample).** The legacy script does not scan for the
sentinels and does not fail before mutation: on a grid whose sentinel
rows sit at indices 0 and 1 its `find_header_rows` still answers the
fixed pair (11, 12) where the sentinel scan answers (0, 1), and on a
grid with no sentinel at all it answers (11, 12) instead of failing,
after which the legacy column routine still mutates the grid. -/
theorem legacy_header_rows_fixed_and_mutating :
    legacyFindHeaderRows (Grid.mk [["Date"], ["Issue"]]) = (11, 12) ∧
    findHeaderRows (Grid.mk [["Date"], ["Issue"]]) = (some 0, some 1) ∧
    legacyFindHeaderRows (Grid.mk [["A"]]) = (11, 12) ∧
    findHeaderRows (Grid.mk [["A"]]) = (none, none) ∧
    (legacyFindOrCreateIssueColumn (Grid.mk [["A"]]) "2026-10-12" "TP (PDF)").1 ≠
      Grid.mk [["A"]] := by
  decide

/-- **C9 (counterexample).** The legacy script's new row does not carry
the revision at the given column index: with column index 3 and a 6-cell
header the cell at index 3 is blank, the revision lands at index 4, and
the row differs from the refactored script's row. -/
theorem legacy_append_row_misplaces_revision :
    (legacyAppendDrawingRow "LF-A0-1" "B" 3 6).getD 3 "" = "" ∧
    (legacyAppendDrawingRow "LF-A0-1" "B" 3 6).getD 4 "" = "B" ∧
    legacyAppendDrawingRow "LF-A0-1" "B" 3 6 ≠
      appendDrawingRow "LF-A0-1" "B" 3 6 := by
  decide
